import Mathlib

/-!
A verification development for the trace implementation in
`src/trace/implementations/rhh.rs`: the `Spine` merge policy, the immutable
`Layer` batches with `merge`/`advance_by`, and the two layer builders.

Keys, values and times are modelled as natural numbers (the source notes that
integer keys may be used as their own hashes, so the hash function is the
identity and hash order coincides with numeric order).  Multiplicities are
integers.  The nested trie `HashedLayer<Key, OrderedLayer<Val,
UnorderedLayer<(Time, isize)>>>` is modelled as a nested association list
`key → (val → list (time, diff))`.

The lattice operation `Time::advance_by` is an external capability; it is
passed around as an explicit parameter `adv : ℕ → List ℕ → Option ℕ`
(`none` models the case where the frontier does not dominate the time, which
the source turns into a panic via `.unwrap()`; here the panic is modelled by
`Option` propagation).

The loops in `Spine::insert` and the trie merge are written with explicit
fuel (initialised to a list length that strictly bounds the number of
iterations), so that all definitions compute by kernel reduction.
-/

namespace RHH

/-- A leaf list of `(time, multiplicity)` pairs: models `UnorderedLayer<(Time, isize)>`. -/
abbrev Leaf := List (ℕ × ℤ)

/-- Value level of the trie: models `OrderedLayer<Val, UnorderedLayer<..>>`. -/
abbrev ValNode := List (ℕ × Leaf)

/-- Key level of the trie: models `HashedLayer<Key, OrderedLayer<..>>`. -/
abbrev Trie := List (ℕ × ValNode)

/-- An update tuple `(key, val, time, diff)`. -/
abbrev Tup := ℕ × ℕ × ℕ × ℤ

/-- Modelled from the spec: `Description` metadata on a `Layer` — the
`lower`/`upper` interval bounds and the applied compaction frontier `since`. -/
structure Description where
  lower : List ℕ
  upper : List ℕ
  since : List ℕ
deriving DecidableEq

/-- An immutable collection of update tuples (`Layer` in the source):
a nested trie plus a `Description`. -/
structure Layer where
  layer : Trie
  desc : Description
deriving DecidableEq

/-- Tuples of one leaf list. -/
def leafLen (l : Leaf) : ℕ := l.length

/-- Tuples below one key entry. -/
def valsLen (vs : ValNode) : ℕ := (vs.map (fun vn => leafLen vn.2)).sum

/-- Total tuples of a trie: models the `tuples()` count of the nested trie. -/
def trieLen (tr : Trie) : ℕ := (tr.map (fun kn => valsLen kn.2)).sum

/-- `Layer::len`, the total tuple count. -/
def Layer.len (l : Layer) : ℕ := trieLen l.layer

/-- `layer.keys()`: the number of key entries of the trie. -/
def Layer.keys (l : Layer) : ℕ := l.layer.length

/-- The `(val, time, diff)` tuples below one key, in enumeration order. -/
def flattenVals (vs : ValNode) : List (ℕ × ℕ × ℤ) :=
  vs.flatMap (fun vn => vn.2.map (fun td => (vn.1, td.1, td.2)))

/-- The cursor-enumerated content of a trie, flattened to update tuples in
enumeration order (key major, then value, then leaf order). -/
def flattenTrie (tr : Trie) : List Tup :=
  tr.flatMap (fun kn => (flattenVals kn.2).map (fun x => (kn.1, x)))

/-- Cursor-enumerated content of a layer. -/
def Layer.contents (l : Layer) : List Tup := flattenTrie l.layer

/-- The mutable trace (`Spine` in the source): a frontier and a list of
layers.  The list is kept head-first: the head is the most recently pushed
(top / newest / smallest) layer, mirroring the tail of the source `Vec`. -/
structure Spine where
  frontier : List ℕ
  layers : List Layer
deriving DecidableEq

/-- `Spine::new(default)`: empty layer list, singleton frontier. -/
def Spine.new (default : ℕ) : Spine := { frontier := [default], layers := [] }

/-! ### Consolidation

Modelled from the spec: `trace::consolidate` is a general
consolidate-by-first-component routine — it sorts the buffer by the first
component, sums multiplicities for equal first components, and drops zero
sums. -/

/-- Order a pair list by its first component under `le`. -/
def fstRel {α : Type} (le : α → α → Prop) (p q : α × ℤ) : Prop := le p.1 q.1

instance fstRel.decidable {α : Type} (le : α → α → Prop) [DecidableRel le] :
    DecidableRel (fstRel le) := fun p q => by unfold fstRel; infer_instance

instance fstRel.total {α : Type} (le : α → α → Prop) [IsTotal α le] :
    IsTotal (α × ℤ) (fstRel le) := ⟨fun p q => IsTotal.total (r := le) p.1 q.1⟩

instance fstRel.trans {α : Type} (le : α → α → Prop) [IsTrans α le] :
    IsTrans (α × ℤ) (fstRel le) := ⟨fun _ _ _ h h2 => IsTrans.trans (r := le) _ _ _ h h2⟩

/-- Sum runs of adjacent pairs with equal first component. -/
def collapse {α : Type} [DecidableEq α] : List (α × ℤ) → List (α × ℤ)
  | [] => []
  | (a, d) :: rest =>
    match collapse rest with
    | [] => [(a, d)]
    | (b, e) :: r => if a = b then (a, d + e) :: r else (a, d) :: (b, e) :: r

/-- Modelled from the spec: consolidate a list of `(x, diff)` pairs — sort by
the first component, sum multiplicities of equal first components, drop zero
sums. -/
def consolidateBy {α : Type} [DecidableEq α] (le : α → α → Prop) [DecidableRel le]
    (l : List (α × ℤ)) : List (α × ℤ) :=
  (collapse (List.insertionSort (fstRel le) l)).filter (fun p => p.2 != 0)

/-- Consolidation of `(time, diff)` leaves, as used by `Layer::advance_by`. -/
def consolidateT (l : Leaf) : Leaf := consolidateBy (α := ℕ) (· ≤ ·) l

/-- The hash-consistent lexicographic order on `(key, val)` pairs (hashes are
the keys themselves). -/
def kvLE (a b : ℕ × ℕ) : Prop := a.1 < b.1 ∨ (a.1 = b.1 ∧ a.2 ≤ b.2)

instance kvLE.decidable : DecidableRel kvLE := fun a b => by unfold kvLE; infer_instance

instance kvLE.totalInst : IsTotal (ℕ × ℕ) kvLE := by
  constructor
  intro a b
  rcases Nat.lt_trichotomy a.1 b.1 with h | h | h
  · exact Or.inl (Or.inl h)
  · rcases Nat.le_total a.2 b.2 with h2 | h2
    · exact Or.inl (Or.inr ⟨h, h2⟩)
    · exact Or.inr (Or.inr ⟨h.symm, h2⟩)
  · exact Or.inr (Or.inl h)

instance kvLE.transInst : IsTrans (ℕ × ℕ) kvLE := by
  constructor
  intro a b c hab hbc
  rcases hab with h | ⟨h, h2⟩
  · rcases hbc with h3 | ⟨h3, _⟩
    · exact Or.inl (h.trans h3)
    · exact Or.inl (h3 ▸ h)
  · rcases hbc with h3 | ⟨h3, h4⟩
    · exact Or.inl (h ▸ h3)
    · exact Or.inr ⟨h.trans h3, h2.trans h4⟩

/-- Consolidation of `((key, val), diff)` buffers, as used by the buffered
layer builder. -/
def consolidateKV (l : List ((ℕ × ℕ) × ℤ)) : List ((ℕ × ℕ) × ℤ) := consolidateBy kvLE l

/-! ### The nested tuple builder

Modelled from the spec: the trie's tuple builder (`RHHBuilder` /
`push_tuple`) receives tuples in trie order and infers the key and value
grouping from consecutive runs of equal keys and values. -/

/-- Add one `(val, time, diff)` tuple on top of a value-level structure,
merging into the first value node when the value matches. -/
def consVal : (ℕ × ℕ × ℤ) → ValNode → ValNode
  | (v, t, d), [] => [(v, [(t, d)])]
  | (v, t, d), (v2, ts) :: vr =>
    if v = v2 then (v2, (t, d) :: ts) :: vr else (v, [(t, d)]) :: (v2, ts) :: vr

/-- Build a value-level structure from `(val, time, diff)` tuples by grouping
consecutive equal values. -/
def buildVals : List (ℕ × ℕ × ℤ) → ValNode
  | [] => []
  | x :: rest => consVal x (buildVals rest)

/-- Add one update tuple on top of a trie, merging into the first key node
when the key matches. -/
def consKey : Tup → Trie → Trie
  | (k, v, t, d), [] => [(k, buildVals [(v, t, d)])]
  | (k, v, t, d), (k2, vs) :: kr =>
    if k = k2 then (k2, consVal (v, t, d) vs) :: kr
    else (k, buildVals [(v, t, d)]) :: (k2, vs) :: kr

/-- Build a trie from update tuples by grouping consecutive equal keys, then
consecutive equal values: the result of feeding the tuples to `push_tuple`
in order and calling `done` on the nested builder. -/
def buildTrie : List Tup → Trie
  | [] => []
  | x :: rest => consKey x (buildTrie rest)

/-! ### Layer merge

Modelled from the spec: the trie's structural merge — entries for any
`(key, value, time)` present in either input carry the summed multiplicity,
zero sums and emptied substructures are elided.  Matching keys and values of
the two sorted tries are aligned; leaf lists of matching `(key, value)`
pairs are consolidated together. -/

/-- Merge two leaf lists, summing multiplicities of equal times and dropping
zero sums. -/
def mergeLeaf (l1 l2 : Leaf) : Leaf := consolidateT (l1 ++ l2)

/-- Merge two value-level structures (fuelled; fuel bounds the sum of
lengths). -/
def mergeValsGo : ℕ → ValNode → ValNode → ValNode
  | 0, xs, ys => xs ++ ys
  | _ + 1, [], ys => ys
  | _ + 1, x :: xs, [] => x :: xs
  | fuel + 1, (v1, l1) :: xs, (v2, l2) :: ys =>
    if v1 < v2 then (v1, l1) :: mergeValsGo fuel xs ((v2, l2) :: ys)
    else if v2 < v1 then (v2, l2) :: mergeValsGo fuel ((v1, l1) :: xs) ys
    else
      let m := mergeLeaf l1 l2
      if m.isEmpty then mergeValsGo fuel xs ys else (v1, m) :: mergeValsGo fuel xs ys

/-- Merge two value-level structures. -/
def mergeVals (xs ys : ValNode) : ValNode := mergeValsGo (xs.length + ys.length) xs ys

/-- Merge two tries (fuelled). -/
def mergeTrieGo : ℕ → Trie → Trie → Trie
  | 0, xs, ys => xs ++ ys
  | _ + 1, [], ys => ys
  | _ + 1, x :: xs, [] => x :: xs
  | fuel + 1, (k1, v1) :: xs, (k2, v2) :: ys =>
    if k1 < k2 then (k1, v1) :: mergeTrieGo fuel xs ((k2, v2) :: ys)
    else if k2 < k1 then (k2, v2) :: mergeTrieGo fuel ((k1, v1) :: xs) ys
    else
      let m := mergeVals v1 v2
      if m.isEmpty then mergeTrieGo fuel xs ys else (k1, m) :: mergeTrieGo fuel xs ys

/-- Merge two tries. -/
def mergeTrie (xs ys : Trie) : Trie := mergeTrieGo (xs.length + ys.length) xs ys

/-- `Layer::merge`: full structural merge; the result's `Description` has
empty lower/upper/since bounds. -/
def Layer.merge (a b : Layer) : Layer :=
  { layer := mergeTrie a.layer b.layer, desc := ⟨[], [], []⟩ }

/-! ### Layer advance (`Layer::advance_by`) -/

/-- Advance every time of a leaf by the frontier (`map_times` pushing
`time.advance_by(frontier).unwrap()`); `none` models the panic when some
advance fails. -/
def advanceLeaf (adv : ℕ → List ℕ → Option ℕ) (frontier : List ℕ) : Leaf → Option Leaf
  | [] => some []
  | td :: rest => do
    let t2 ← adv td.1 frontier
    let r ← advanceLeaf adv frontier rest
    pure ((t2, td.2) :: r)

/-- The tuples pushed for the value entries of one key: for each value, the
advanced and consolidated leaf, emitted as `(key, val, time, diff)` tuples. -/
def advanceKeyTuples (adv : ℕ → List ℕ → Option ℕ) (frontier : List ℕ) (k : ℕ) :
    ValNode → Option (List Tup)
  | [] => some []
  | (v, leaf) :: vrest => do
    let moved ← advanceLeaf adv frontier leaf
    let rest ← advanceKeyTuples adv frontier k vrest
    pure ((consolidateT moved).map (fun td => (k, v, td.1, td.2)) ++ rest)

/-- The full stream of tuples pushed by the cursor walk of
`Layer::advance_by`. -/
def advanceTuples (adv : ℕ → List ℕ → Option ℕ) (frontier : List ℕ) :
    Trie → Option (List Tup)
  | [] => some []
  | (k, vs) :: rest => do
    let a ← advanceKeyTuples adv frontier k vs
    let b ← advanceTuples adv frontier rest
    pure (a ++ b)

/-- `Layer::advance_by`: rebuild the layer through a fresh builder with all
times advanced by the frontier and leaves consolidated; the `Description`
keeps the original lower and upper bounds and records the frontier as
`since`. -/
def Layer.advance (adv : ℕ → List ℕ → Option ℕ) (l : Layer) (frontier : List ℕ) :
    Option Layer :=
  if 0 < l.len then do
    let tuples ← advanceTuples adv frontier l.layer
    pure { layer := buildTrie tuples,
           desc := ⟨l.desc.lower, l.desc.upper, frontier⟩ }
  else
    some { layer := buildTrie [],
           desc := ⟨l.desc.lower, l.desc.upper, frontier⟩ }

/-- The claim-side description of `advance_by` at the value level: for each
value of the key, replace every leaf time by its advance, consolidate equal
advanced times summing multiplicities and dropping zero sums, and keep only
values with surviving entries. -/
def advanceSpecLeafVals (adv : ℕ → List ℕ → Option ℕ) (frontier : List ℕ) :
    ValNode → Option ValNode
  | [] => some []
  | (v, leaf) :: vr => do
    let moved ← advanceLeaf adv frontier leaf
    let rest ← advanceSpecLeafVals adv frontier vr
    pure (if (consolidateT moved).isEmpty then rest else (v, consolidateT moved) :: rest)

/-- The claim-side description of `advance_by` at the trie level: advance and
consolidate each key's values, keeping only keys with surviving entries. -/
def advanceSpecTrie (adv : ℕ → List ℕ → Option ℕ) (frontier : List ℕ) :
    Trie → Option Trie
  | [] => some []
  | (k, vs) :: kr => do
    let vs2 ← advanceSpecLeafVals adv frontier vs
    let rest ← advanceSpecTrie adv frontier kr
    pure (if vs2.isEmpty then rest else (k, vs2) :: rest)

/-! ### Spine insert (`Spine::insert`) -/

/-- The absorption loop of `Spine::insert` (fuelled): while at least two
layers exist and the second-from-top layer is smaller than the incoming
batch, pop the top two, merge them, and push the result back if it is
non-empty. -/
def absorbGo (blen : ℕ) : ℕ → List Layer → List Layer
  | 0, ls => ls
  | fuel + 1, ls =>
    match ls with
    | l1 :: l2 :: rest =>
      if l2.len < blen then
        let m := l1.merge l2
        if 0 < m.len then absorbGo blen fuel (m :: rest) else absorbGo blen fuel rest
      else l1 :: l2 :: rest
    | _ => ls

/-- The absorption phase on a layer stack (head = top). -/
def absorb (blen : ℕ) (ls : List Layer) : List Layer := absorbGo blen ls.length ls

/-- The doubling loop of `Spine::insert` (fuelled): while at least two layers
exist and the second-from-top layer is smaller than twice the top layer, pop
the top two and merge; if the merge emptied the stack, additionally advance
the result by the frontier; push the result back if non-empty.  `none`
models a panicking advance. -/
def doublingGo (adv : ℕ → List ℕ → Option ℕ) (frontier : List ℕ) :
    ℕ → List Layer → Option (List Layer)
  | 0, ls => some ls
  | fuel + 1, ls =>
    match ls with
    | l1 :: l2 :: rest =>
      if l2.len < 2 * l1.len then
        let m := l1.merge l2
        if rest.isEmpty then
          match Layer.advance adv m frontier with
          | none => none
          | some m2 =>
            if 0 < m2.len then doublingGo adv frontier fuel (m2 :: rest)
            else doublingGo adv frontier fuel rest
        else
          if 0 < m.len then doublingGo adv frontier fuel (m :: rest)
          else doublingGo adv frontier fuel rest
      else some (l1 :: l2 :: rest)
    | _ => some ls

/-- The doubling phase on a layer stack (head = top). -/
def doubling (adv : ℕ → List ℕ → Option ℕ) (frontier : List ℕ) (ls : List Layer) :
    Option (List Layer) :=
  doublingGo adv frontier ls.length ls

/-- `Spine::insert`: if the batch has keys, run the absorption phase against
the batch length, push the batch if it has tuples, then run the doubling
phase. -/
def Spine.insert (adv : ℕ → List ℕ → Option ℕ) (s : Spine) (b : Layer) :
    Option Spine :=
  if 0 < b.keys then
    let ls1 := absorb b.len s.layers
    let ls2 := if 0 < b.len then b :: ls1 else ls1
    match doubling adv s.frontier ls2 with
    | none => none
    | some ls3 => some { s with layers := ls3 }
  else some s

/-- `Spine::advance_by`: replace the stored frontier. -/
def Spine.advanceBy (s : Spine) (frontier : List ℕ) : Spine :=
  { s with frontier := frontier }

/-! ### The buffered / hash-sorted builder (`LayerBuilder`) -/

/-- The state of the buffered builder: the uniform time (overwritten by every
push), the current chunk, and the list of full chunks. -/
structure LayerBuilder where
  time : ℕ
  buffer : List ((ℕ × ℕ) × ℤ)
  buffers : List (List ((ℕ × ℕ) × ℤ))
deriving DecidableEq

/-- `Builder::new` for the buffered builder (the default time is `0`). -/
def LayerBuilder.new : LayerBuilder := ⟨0, [], []⟩

/-- `LayerBuilder::push`: overwrite the time field, append `((key, val),
diff)` to the chunk, and rotate the chunk into the chunk list when it
reaches `2^12` entries. -/
def LayerBuilder.push (lb : LayerBuilder) (x : Tup) : LayerBuilder :=
  let buf := lb.buffer ++ [((x.1, x.2.1), x.2.2.2)]
  if buf.length = 4096 then ⟨x.2.2.1, [], lb.buffers ++ [buf]⟩
  else ⟨x.2.2.1, buf, lb.buffers⟩

/-- Emit a consolidated run into the trie builder: every pair becomes a
`(key, val, time, diff)` tuple carrying the builder's single time. -/
def flushTuples (t : ℕ) (l : List ((ℕ × ℕ) × ℤ)) : List Tup :=
  l.map (fun p => (p.1.1, p.1.2, t, p.2))

/-- The run-walk of `LayerBuilder::done`: scan the hash-sorted pairs keeping
a buffer of the current equal-hash run; when the hash changes, consolidate
and flush the buffer; flush the final run after the scan. -/
def walk (t : ℕ) : ℕ → List ((ℕ × ℕ) × ℤ) → List ((ℕ × ℕ) × ℤ) → List Tup
  | _, buf, [] => flushTuples t (consolidateKV buf)
  | cur, buf, x :: rest =>
    if x.1.1 ≠ cur then flushTuples t (consolidateKV buf) ++ walk t x.1.1 [x] rest
    else walk t cur (buf ++ [x]) rest

/-- The hash order on buffered pairs (the hash of a key is the key itself). -/
def hkLE (p q : (ℕ × ℕ) × ℤ) : Prop := p.1.1 ≤ q.1.1

instance hkLE.decidable : DecidableRel hkLE := fun p q => by unfold hkLE; infer_instance

instance hkLE.totalInst : IsTotal ((ℕ × ℕ) × ℤ) hkLE :=
  ⟨fun p q => Nat.le_total p.1.1 q.1.1⟩

instance hkLE.transInst : IsTrans ((ℕ × ℕ) × ℤ) hkLE :=
  ⟨fun _ _ _ h h2 => Nat.le_trans h h2⟩

/-- Modelled from the spec: the LSB radix sort pass of `LayerBuilder::done` —
a linear-time stable sort of all buffered pairs by hashed key. -/
def sortByHash (l : List ((ℕ × ℕ) × ℤ)) : List ((ℕ × ℕ) × ℤ) :=
  List.insertionSort hkLE l

/-- `LayerBuilder::done`: if only a single chunk was accumulated, consolidate
it directly; otherwise append the leftover chunk, sort everything by key
hash, and walk the sorted run flushing consolidated equal-hash runs.  The
resulting description is `(lower, upper, lower)`. -/
def LayerBuilder.done (lb : LayerBuilder) (lower upper : List ℕ) : Layer :=
  if lb.buffers.isEmpty then
    ⟨buildTrie (flushTuples lb.time (consolidateKV lb.buffer)), ⟨lower, upper, lower⟩⟩
  else
    let bufs := if lb.buffer.isEmpty then lb.buffers else lb.buffers ++ [lb.buffer]
    ⟨buildTrie (walk lb.time 0 [] (sortByHash bufs.flatten)), ⟨lower, upper, lower⟩⟩

/-- Push a whole list of tuples in order. -/
def LayerBuilder.pushList (lb : LayerBuilder) (ts : List Tup) : LayerBuilder :=
  ts.foldl LayerBuilder.push lb

/-! ### The direct / pre-ordered builder (`OrdBuilder`) -/

/-- The direct builder simply owns the underlying trie tuple builder,
modelled by the list of tuples pushed so far. -/
structure OrdBuilder where
  builder : List Tup
deriving DecidableEq

/-- `Builder::new` for the direct builder. -/
def OrdBuilder.new : OrdBuilder := ⟨[]⟩

/-- `OrdBuilder::push`: feed the tuple straight into the trie builder. -/
def OrdBuilder.push (ob : OrdBuilder) (x : Tup) : OrdBuilder := ⟨ob.builder ++ [x]⟩

/-- `OrdBuilder::done`: finalize the trie builder; the description is
`(lower, upper, lower)`. -/
def OrdBuilder.done (ob : OrdBuilder) (lower upper : List ℕ) : Layer :=
  ⟨buildTrie ob.builder, ⟨lower, upper, lower⟩⟩

/-- Push a whole list of tuples in order. -/
def OrdBuilder.pushList (ob : OrdBuilder) (ts : List Tup) : OrdBuilder :=
  ts.foldl OrdBuilder.push ob

/-- The buffered pair of an update tuple: `((key, val), diff)`. -/
def tupPair (x : Tup) : (ℕ × ℕ) × ℤ := ((x.1, x.2.1), x.2.2.2)

/-- The trie order on update tuples: by key hash (= key), then value. -/
def tupLE (a b : Tup) : Prop := kvLE (a.1, a.2.1) (b.1, b.2.1)

instance tupLE.decidable : DecidableRel tupLE :=
  inferInstanceAs (DecidableRel (fun a b : Tup => kvLE (a.1, a.2.1) (b.1, b.2.1)))

/-- Sort update tuples into final trie order. -/
def sortTuples (ts : List Tup) : List Tup := List.insertionSort tupLE ts

/-- The run decomposition performed by the walk of `LayerBuilder::done`:
split the scanned list into the successive equal-hash runs (the first group
is the initial buffer, extended while the hash matches `cur`). -/
def groupCur (cur : ℕ) (buf : List ((ℕ × ℕ) × ℤ)) :
    List ((ℕ × ℕ) × ℤ) → List (List ((ℕ × ℕ) × ℤ))
  | [] => [buf]
  | x :: rest =>
    if x.1.1 ≠ cur then buf :: groupCur x.1.1 [x] rest
    else groupCur cur (buf ++ [x]) rest

/-- Strict-or-equal order on buffered pairs used to identify sorted
permutations: strictly smaller `(key, val)` component, or equal pairs. -/
def kvSL (p q : (ℕ × ℕ) × ℤ) : Prop := (kvLE p.1 q.1 ∧ p.1 ≠ q.1) ∨ p = q

/-! ### Well-formedness predicates -/

/-- The value-level trie invariant: values strictly sorted, leaves
consolidated (distinct times, no zero multiplicities). -/
def ValsWFs (vs : ValNode) : Prop :=
  (vs.map Prod.fst).Pairwise (· < ·) ∧
  ∀ vn ∈ vs, (vn.2.map Prod.fst).Nodup ∧ ∀ td ∈ vn.2, td.2 ≠ 0

/-- The trie invariant: keys strictly sorted (in hash order, which is the
numeric order here) and every key's value level well-formed. -/
def TrieWFs (tr : Trie) : Prop :=
  (tr.map Prod.fst).Pairwise (· < ·) ∧ ∀ kn ∈ tr, ValsWFs kn.2

/-- The consolidation invariant on a trie's enumerated content: no two
distinct entries share a `(key, value, time)` triple and no entry has zero
multiplicity. -/
def Consolidated (tr : Trie) : Prop :=
  ((flattenTrie tr).map (fun y => (y.1, y.2.1, y.2.2.1))).Nodup ∧
  ∀ y ∈ flattenTrie tr, y.2.2.2 ≠ 0

instance ValsWFs.decidable (vs : ValNode) : Decidable (ValsWFs vs) :=
  inferInstanceAs (Decidable ((vs.map Prod.fst).Pairwise (· < ·) ∧
    ∀ vn ∈ vs, (vn.2.map Prod.fst).Nodup ∧ ∀ td ∈ vn.2, td.2 ≠ 0))

instance TrieWFs.decidable (tr : Trie) : Decidable (TrieWFs tr) :=
  inferInstanceAs (Decidable ((tr.map Prod.fst).Pairwise (· < ·) ∧ ∀ kn ∈ tr, ValsWFs kn.2))

instance Consolidated.decidable (tr : Trie) : Decidable (Consolidated tr) :=
  inferInstanceAs (Decidable (((flattenTrie tr).map
    (fun y : Tup => (y.1, y.2.1, y.2.2.1))).Nodup ∧ ∀ y ∈ flattenTrie tr, y.2.2.2 ≠ 0))

/-- The spine stack invariant (head = top): every layer below the top holds
at least twice as many tuples as the layer directly above it, and no
zero-length layer is resident. -/
def SpineInv (ls : List Layer) : Prop :=
  ls.Chain' (fun a b => 2 * a.len ≤ b.len) ∧ ∀ l ∈ ls, 1 ≤ l.len

instance SpineInv.decidable (ls : List Layer) : Decidable (SpineInv ls) :=
  inferInstanceAs (Decidable
    (ls.Chain' (fun a b : Layer => 2 * a.len ≤ b.len) ∧ ∀ l ∈ ls, 1 ≤ l.len))

/-- Total resident tuples of a layer stack. -/
def totalLen (ls : List Layer) : ℕ := (ls.map Layer.len).sum

/-! ### Concrete instances used by witnesses -/

/-- Modelled from the spec: the totally ordered instance of
`Time::advance_by` — the least time at-or-after `t` that is at-or-after some
frontier element, `none` when the frontier is empty. -/
def advTotal (t : ℕ) (f : List ℕ) : Option ℕ :=
  match f.min? with
  | none => none
  | some m => some (max t m)

/-- A one-tuple layer holding `(k, 0, 0, +1)`. -/
def unitLayer (k : ℕ) : Layer := ⟨[(k, [(0, [(0, 1)])])], ⟨[0], [], [0]⟩⟩

/-- An `n`-tuple layer holding `(i, 0, 0, +1)` for `i < n`. -/
def rangeLayer (n : ℕ) : Layer :=
  ⟨(List.range n).map (fun i => (i, [(0, [(0, 1)])])), ⟨[0], [], [0]⟩⟩

/-- First batch of the 1, 1, 10 insertion scenario. -/
def c9b1 : Layer := unitLayer 20

/-- Second batch of the 1, 1, 10 insertion scenario. -/
def c9b2 : Layer := unitLayer 21

/-- Third batch (ten tuples) of the 1, 1, 10 insertion scenario. -/
def c9b10 : Layer := rangeLayer 10

/-- The spine after inserting the first size-1 batch. -/
def c9s1 : Spine := (Spine.insert advTotal (Spine.new 0) c9b1).getD (Spine.new 0)

/-- The spine after inserting the second size-1 batch. -/
def c9s2 : Spine := (Spine.insert advTotal c9s1 c9b2).getD (Spine.new 0)

/-- The spine after inserting the size-10 batch. -/
def c9s3 : Spine := (Spine.insert advTotal c9s2 c9b10).getD (Spine.new 0)

/-! ### Fuel irrelevance for the fuelled loops -/

theorem absorbGo_irrel (blen : ℕ) :
    ∀ f g ls, ls.length ≤ f → ls.length ≤ g →
      absorbGo blen f ls = absorbGo blen g ls := by
  intro f
  induction f with
  | zero =>
    intro g ls hf _
    have : ls = [] := List.length_eq_zero.mp (Nat.le_zero.mp hf)
    subst this
    cases g <;> rfl
  | succ f ih =>
    intro g ls hf hg
    match ls with
    | [] => cases g <;> rfl
    | [l] => cases g <;> rfl
    | l1 :: l2 :: rest =>
      simp only [List.length_cons] at hf hg
      obtain ⟨g', rfl⟩ := Nat.exists_eq_succ_of_ne_zero (by omega : g ≠ 0)
      simp only [absorbGo]
      split
      · split
        · exact ih g' _ (by simp only [List.length_cons]; omega)
            (by simp only [List.length_cons]; omega)
        · exact ih g' _ (by omega) (by omega)
      · rfl

theorem doublingGo_irrel (adv : ℕ → List ℕ → Option ℕ) (fr : List ℕ) :
    ∀ f g ls, ls.length ≤ f → ls.length ≤ g →
      doublingGo adv fr f ls = doublingGo adv fr g ls := by
  intro f
  induction f with
  | zero =>
    intro g ls hf _
    have : ls = [] := List.length_eq_zero.mp (Nat.le_zero.mp hf)
    subst this
    cases g <;> rfl
  | succ f ih =>
    intro g ls hf hg
    match ls with
    | [] => cases g <;> rfl
    | [l] => cases g <;> rfl
    | l1 :: l2 :: rest =>
      simp only [List.length_cons] at hf hg
      obtain ⟨g', rfl⟩ := Nat.exists_eq_succ_of_ne_zero (by omega : g ≠ 0)
      simp only [doublingGo]
      split
      · split
        · split
          · rfl
          · split
            · exact ih g' _ (by simp only [List.length_cons]; omega)
                (by simp only [List.length_cons]; omega)
            · exact ih g' _ (by omega) (by omega)
        · split
          · exact ih g' _ (by simp only [List.length_cons]; omega)
              (by simp only [List.length_cons]; omega)
          · exact ih g' _ (by omega) (by omega)
      · rfl

/-! ### Clean unfolding equations for the two phases -/

theorem absorb_short (blen : ℕ) (ls : List Layer) (h : ls.length ≤ 1) :
    absorb blen ls = ls := by
  match ls with
  | [] => rfl
  | [l] => rfl
  | l1 :: l2 :: rest => simp at h

theorem absorb_exit (blen : ℕ) (l1 l2 : Layer) (rest : List Layer)
    (h : ¬ l2.len < blen) : absorb blen (l1 :: l2 :: rest) = l1 :: l2 :: rest := by
  simp only [absorb, List.length_cons, absorbGo, if_neg h]

theorem absorb_step (blen : ℕ) (l1 l2 : Layer) (rest : List Layer)
    (h : l2.len < blen) :
    absorb blen (l1 :: l2 :: rest) =
      if 0 < (l1.merge l2).len then absorb blen ((l1.merge l2) :: rest)
      else absorb blen rest := by
  simp only [absorb, List.length_cons, absorbGo, if_pos h]
  split
  · rfl
  · exact absorbGo_irrel blen (rest.length + 1) rest.length rest (by simp) (by simp)

theorem doubling_short (adv : ℕ → List ℕ → Option ℕ) (fr : List ℕ)
    (ls : List Layer) (h : ls.length ≤ 1) : doubling adv fr ls = some ls := by
  match ls with
  | [] => rfl
  | [l] => rfl
  | l1 :: l2 :: rest => simp at h

theorem doubling_exit (adv : ℕ → List ℕ → Option ℕ) (fr : List ℕ)
    (l1 l2 : Layer) (rest : List Layer) (h : ¬ l2.len < 2 * l1.len) :
    doubling adv fr (l1 :: l2 :: rest) = some (l1 :: l2 :: rest) := by
  simp only [doubling, List.length_cons, doublingGo, if_neg h]

theorem doubling_last (adv : ℕ → List ℕ → Option ℕ) (fr : List ℕ)
    (l1 l2 : Layer) (h : l2.len < 2 * l1.len) :
    doubling adv fr [l1, l2] =
      match Layer.advance adv (l1.merge l2) fr with
      | none => none
      | some m2 => if 0 < m2.len then doubling adv fr [m2] else doubling adv fr [] := by
  show doublingGo adv fr (Nat.succ (Nat.succ 0)) [l1, l2] = _
  rw [doublingGo]
  simp only [if_pos h, List.isEmpty_nil, if_true]
  cases Layer.advance adv (l1.merge l2) fr with
  | none => rfl
  | some m2 =>
    by_cases h2 : 0 < m2.len
    · simp only [if_pos h2]; rfl
    · simp only [if_neg h2]; rfl

theorem doubling_step (adv : ℕ → List ℕ → Option ℕ) (fr : List ℕ)
    (l1 l2 l3 : Layer) (rest : List Layer) (h : l2.len < 2 * l1.len) :
    doubling adv fr (l1 :: l2 :: l3 :: rest) =
      if 0 < (l1.merge l2).len then doubling adv fr ((l1.merge l2) :: l3 :: rest)
      else doubling adv fr (l3 :: rest) := by
  show doublingGo adv fr (Nat.succ (Nat.succ (Nat.succ rest.length)))
    (l1 :: l2 :: l3 :: rest) = _
  rw [doublingGo]
  simp only [if_pos h, List.isEmpty_cons, Bool.false_eq_true, if_false]
  by_cases h2 : 0 < (l1.merge l2).len
  · simp only [if_pos h2]; rfl
  · simp only [if_neg h2]
    exact doublingGo_irrel adv fr (rest.length + 2) (rest.length + 1) (l3 :: rest)
      (by simp) (by simp)

/-! ### Basic length facts -/

theorem trieLen_nil : trieLen [] = 0 := rfl

theorem trieLen_cons (kn : ℕ × ValNode) (kr : Trie) :
    trieLen (kn :: kr) = valsLen kn.2 + trieLen kr := by
  simp [trieLen]

theorem valsLen_nil : valsLen [] = 0 := rfl

theorem valsLen_cons (vn : ℕ × Leaf) (vr : ValNode) :
    valsLen (vn :: vr) = vn.2.length + valsLen vr := by
  simp [valsLen, leafLen]

theorem trieLen_eq_zero_iff_keys (l : Layer)
    (hwf : ∀ kn ∈ l.layer, kn.2 ≠ [] ∧ ∀ vn ∈ kn.2, vn.2 ≠ []) :
    l.len = 0 → l.layer = [] := by
  intro h
  cases hl : l.layer with
  | nil => rfl
  | cons kn kr =>
    exfalso
    obtain ⟨hne, hleaf⟩ := hwf kn (by rw [hl]; exact List.mem_cons_self _ _)
    cases hvs : kn.2 with
    | nil => exact hne hvs
    | cons vn vr =>
      have hv := hleaf vn (by rw [hvs]; exact List.mem_cons_self _ _)
      cases hlf : vn.2 with
      | nil => exact hv hlf
      | cons td tds =>
        have hpos : 0 < l.len := by
          simp only [Layer.len, hl, trieLen_cons, hvs, valsLen_cons, hlf,
            List.length_cons]
          omega
        omega

theorem keys_pos_of_len_pos (b : Layer) (h : 0 < b.len) : 0 < b.keys := by
  by_contra h2
  have h3 : b.layer.length = 0 := by
    have : b.keys = 0 := by omega
    exact this
  have h4 : b.layer = [] := List.length_eq_zero.mp h3
  rw [Layer.len, h4] at h
  simp [trieLen] at h

/-- **C6.** `Spine::advance_by` replaces only the stored frontier; the list of
resident layers is left completely unchanged. -/
theorem spine_advance_by_frame (s : Spine) (f : List ℕ) :
    (s.advanceBy f).layers = s.layers ∧ (s.advanceBy f).frontier = f :=
  ⟨rfl, rfl⟩

/-- **C2.** A zero-tuple insert is a no-op; for a non-empty batch, the
absorption loop pops and merges the top two layers while at least two exist
and the second-from-top is strictly smaller than the incoming batch, pushing
non-empty merge results back; only after this loop terminates is the batch
pushed, and the doubling phase then runs on the result. -/
theorem spine_insert_absorption (adv : ℕ → List ℕ → Option ℕ) (s : Spine) (b : Layer) :
    (b.len = 0 → (∀ kn ∈ b.layer, kn.2 ≠ [] ∧ ∀ vn ∈ kn.2, vn.2 ≠ []) →
      Spine.insert adv s b = some s)
  ∧ (0 < b.len → Spine.insert adv s b =
      (doubling adv s.frontier (b :: absorb b.len s.layers)).map
        (fun ls => { s with layers := ls }))
  ∧ (∀ l1 l2 rest, l2.len < b.len →
      absorb b.len (l1 :: l2 :: rest) =
        if 0 < (l1.merge l2).len then absorb b.len ((l1.merge l2) :: rest)
        else absorb b.len rest)
  ∧ (∀ l1 l2 rest, ¬ l2.len < b.len →
      absorb b.len (l1 :: l2 :: rest) = l1 :: l2 :: rest)
  ∧ (∀ ls, ls.length ≤ 1 → absorb b.len ls = ls) := by
  refine ⟨?_, ?_, ?_, ?_, ?_⟩
  · intro hlen hwf
    have hker : b.layer = [] := trieLen_eq_zero_iff_keys b hwf hlen
    simp [Spine.insert, Layer.keys, hker]
  · intro hpos
    have hkeys : 0 < b.keys := keys_pos_of_len_pos b hpos
    simp only [Spine.insert, if_pos hkeys, if_pos hpos]
    cases doubling adv s.frontier (b :: absorb b.len s.layers) <;> rfl
  · intro l1 l2 rest h; exact absorb_step b.len l1 l2 rest h
  · intro l1 l2 rest h; exact absorb_exit b.len l1 l2 rest h
  · intro ls h; exact absorb_short b.len ls h

/-- **C2 witness.** Instantiates every clause of the absorption theorem at
concrete batches and stacks. -/
theorem spine_insert_absorption_witness :
    Spine.insert advTotal (Spine.new 0) ⟨[], ⟨[0], [], [0]⟩⟩ = some (Spine.new 0)
  ∧ Spine.insert advTotal (Spine.new 0) (unitLayer 0) =
      (doubling advTotal (Spine.new 0).frontier
        ((unitLayer 0) :: absorb (unitLayer 0).len (Spine.new 0).layers)).map
        (fun ls => { Spine.new 0 with layers := ls })
  ∧ absorb (rangeLayer 3).len (unitLayer 0 :: unitLayer 1 :: []) =
      (if 0 < ((unitLayer 0).merge (unitLayer 1)).len
       then absorb (rangeLayer 3).len ((unitLayer 0).merge (unitLayer 1) :: [])
       else absorb (rangeLayer 3).len [])
  ∧ absorb (unitLayer 5).len (unitLayer 0 :: unitLayer 1 :: []) =
      unitLayer 0 :: unitLayer 1 :: []
  ∧ absorb (unitLayer 5).len [] = [] :=
  ⟨(spine_insert_absorption advTotal (Spine.new 0) ⟨[], ⟨[0], [], [0]⟩⟩).1
      (by decide) (by decide),
   (spine_insert_absorption advTotal (Spine.new 0) (unitLayer 0)).2.1 (by decide),
   (spine_insert_absorption advTotal (Spine.new 0) (rangeLayer 3)).2.2.1
      (unitLayer 0) (unitLayer 1) [] (by decide),
   (spine_insert_absorption advTotal (Spine.new 0) (unitLayer 5)).2.2.2.1
      (unitLayer 0) (unitLayer 1) [] (by decide),
   (spine_insert_absorption advTotal (Spine.new 0) (unitLayer 5)).2.2.2.2 [] (by decide)⟩

/-- **C1.** The doubling loop of `Spine::insert` merges the top two layers
while at least two exist and the second-from-top is shorter than twice the
top; a merge that leaves zero layers remaining is additionally advanced by
the spine's current frontier before being pushed back; zero-length results
are discarded; a successful insert of a non-empty batch runs exactly this
loop on the pushed stack. -/
theorem spine_insert_doubling (adv : ℕ → List ℕ → Option ℕ) (f : List ℕ) :
    (∀ l1 l2 rest, ¬ l2.len < 2 * l1.len →
      doubling adv f (l1 :: l2 :: rest) = some (l1 :: l2 :: rest))
  ∧ (∀ l1 l2, l2.len < 2 * l1.len →
      doubling adv f [l1, l2] =
        match Layer.advance adv (l1.merge l2) f with
        | none => none
        | some m2 => if 0 < m2.len then doubling adv f [m2] else doubling adv f [])
  ∧ (∀ l1 l2 l3 rest, l2.len < 2 * l1.len →
      doubling adv f (l1 :: l2 :: l3 :: rest) =
        if 0 < (l1.merge l2).len then doubling adv f ((l1.merge l2) :: l3 :: rest)
        else doubling adv f (l3 :: rest))
  ∧ (∀ ls, ls.length ≤ 1 → doubling adv f ls = some ls)
  ∧ (∀ s b s', 0 < b.len → s.frontier = f → Spine.insert adv s b = some s' →
      doubling adv f (b :: absorb b.len s.layers) = some s'.layers ∧
        s'.frontier = f) := by
  refine ⟨?_, ?_, ?_, ?_, ?_⟩
  · intro l1 l2 rest h; exact doubling_exit adv f l1 l2 rest h
  · intro l1 l2 h; exact doubling_last adv f l1 l2 h
  · intro l1 l2 l3 rest h; exact doubling_step adv f l1 l2 l3 rest h
  · intro ls h; exact doubling_short adv f ls h
  · intro s b s' hpos hf hins
    have hkeys : 0 < b.keys := keys_pos_of_len_pos b hpos
    simp only [Spine.insert, if_pos hkeys, if_pos hpos] at hins
    subst hf
    cases hd : doubling adv s.frontier (b :: absorb b.len s.layers) with
    | none => rw [hd] at hins; exact absurd hins (by simp)
    | some ls3 =>
      rw [hd] at hins
      have hs' : s' = { s with layers := ls3 } := by
        simpa [eq_comm] using hins
      subst hs'
      exact ⟨rfl, rfl⟩

/-- **C1 witness.** Instantiates every clause of the doubling theorem at
concrete layers, stacks and an insert run. -/
theorem spine_insert_doubling_witness :
    doubling advTotal [0] (unitLayer 0 :: rangeLayer 2 :: []) =
      some (unitLayer 0 :: rangeLayer 2 :: [])
  ∧ doubling advTotal [0] [unitLayer 0, unitLayer 1] =
      (match Layer.advance advTotal ((unitLayer 0).merge (unitLayer 1)) [0] with
       | none => none
       | some m2 => if 0 < m2.len then doubling advTotal [0] [m2]
                    else doubling advTotal [0] [])
  ∧ doubling advTotal [0] (unitLayer 0 :: unitLayer 1 :: rangeLayer 4 :: []) =
      (if 0 < ((unitLayer 0).merge (unitLayer 1)).len
       then doubling advTotal [0] ((unitLayer 0).merge (unitLayer 1) :: rangeLayer 4 :: [])
       else doubling advTotal [0] (rangeLayer 4 :: []))
  ∧ doubling advTotal [0] [] = some []
  ∧ (doubling advTotal [0]
       (unitLayer 0 :: absorb (unitLayer 0).len (Spine.new 0).layers) =
         some (Spine.mk [0] [unitLayer 0]).layers
     ∧ (Spine.mk [0] [unitLayer 0]).frontier = [0]) :=
  ⟨(spine_insert_doubling advTotal [0]).1 (unitLayer 0) (rangeLayer 2) [] (by decide),
   (spine_insert_doubling advTotal [0]).2.1 (unitLayer 0) (unitLayer 1) (by decide),
   (spine_insert_doubling advTotal [0]).2.2.1 (unitLayer 0) (unitLayer 1)
      (rangeLayer 4) [] (by decide),
   (spine_insert_doubling advTotal [0]).2.2.2.1 [] (by decide),
   (spine_insert_doubling advTotal [0]).2.2.2.2 (Spine.new 0) (unitLayer 0)
      (Spine.mk [0] [unitLayer 0]) (by decide) (by decide) (by decide)⟩

/-! ### Flattening the trie builder -/

theorem consVal_nilE (v t : ℕ) (d : ℤ) : consVal (v, t, d) [] = [(v, [(t, d)])] := rfl

theorem consVal_consE (v t : ℕ) (d : ℤ) (v2 : ℕ) (ts : Leaf) (vr : ValNode) :
    consVal (v, t, d) ((v2, ts) :: vr) =
      if v = v2 then (v2, (t, d) :: ts) :: vr
      else (v, [(t, d)]) :: (v2, ts) :: vr := rfl

theorem consKey_nilE (k v t : ℕ) (d : ℤ) :
    consKey (k, v, t, d) [] = [(k, buildVals [(v, t, d)])] := rfl

theorem consKey_consE (k v t : ℕ) (d : ℤ) (k2 : ℕ) (vs : ValNode) (kr : Trie) :
    consKey (k, v, t, d) ((k2, vs) :: kr) =
      if k = k2 then (k2, consVal (v, t, d) vs) :: kr
      else (k, buildVals [(v, t, d)]) :: (k2, vs) :: kr := rfl

theorem flattenTrie_cons (kn : ℕ × ValNode) (kr : Trie) :
    flattenTrie (kn :: kr) =
      (flattenVals kn.2).map (fun x => (kn.1, x)) ++ flattenTrie kr := by
  simp [flattenTrie]

theorem flattenVals_consVal (x : ℕ × ℕ × ℤ) (vs : ValNode) :
    flattenVals (consVal x vs) = x :: flattenVals vs := by
  obtain ⟨v, t, d⟩ := x
  cases vs with
  | nil => simp [consVal, flattenVals]
  | cons vn vr =>
    obtain ⟨v2, ts⟩ := vn
    by_cases hv : v = v2
    · subst hv; simp [consVal, flattenVals]
    · simp [consVal, hv, flattenVals]

/-- The tuple builder loses nothing: flattening the built trie recovers the
pushed tuples in order. -/
theorem flatten_buildTrie (ts : List Tup) : flattenTrie (buildTrie ts) = ts := by
  induction ts with
  | nil => rfl
  | cons x rest ih =>
    obtain ⟨k, v, t, d⟩ := x
    simp only [buildTrie]
    cases hb : buildTrie rest with
    | nil =>
      rw [hb] at ih
      have hrest : rest = [] := by simpa [flattenTrie] using ih.symm
      subst hrest
      simp [consKey_nilE, flattenTrie, flattenVals, buildVals, consVal]
    | cons kn kr =>
      obtain ⟨k2, vs⟩ := kn
      rw [hb] at ih
      rw [consKey_consE]
      by_cases hk : k = k2
      · subst hk
        rw [if_pos rfl]
        calc flattenTrie ((k, consVal (v, t, d) vs) :: kr)
            = ((v, t, d) :: flattenVals vs).map (fun x => (k, x)) ++ flattenTrie kr := by
              rw [flattenTrie_cons, flattenVals_consVal]
          _ = (k, v, t, d) :: flattenTrie ((k, vs) :: kr) := by simp [flattenTrie_cons]
          _ = (k, v, t, d) :: rest := by rw [ih]
      · rw [if_neg hk]
        rw [flattenTrie_cons]
        simp only [buildVals, consVal, flattenVals, List.flatMap_cons, List.flatMap_nil,
          List.map_cons, List.map_nil, List.append_nil, List.nil_append, List.singleton_append]
        rw [ih]

/-! ### C10: the buffered builder's single time field -/

theorem flushTuples_times (t : ℕ) (l : List ((ℕ × ℕ) × ℤ)) :
    ∀ y ∈ flushTuples t l, y.2.2.1 = t := by
  intro y hy
  simp only [flushTuples, List.mem_map] at hy
  obtain ⟨p, _, rfl⟩ := hy
  rfl

theorem walk_times (t : ℕ) :
    ∀ l cur buf, ∀ y ∈ walk t cur buf l, y.2.2.1 = t := by
  intro l
  induction l with
  | nil => intro cur buf y hy; exact flushTuples_times t _ y hy
  | cons x rest ih =>
    intro cur buf y hy
    simp only [walk] at hy
    split at hy
    · rcases List.mem_append.mp hy with h | h
      · exact flushTuples_times t _ y h
      · exact ih _ _ y h
    · exact ih _ _ y hy

theorem push_time (lb : LayerBuilder) (x : Tup) : (lb.push x).time = x.2.2.1 := by
  simp only [LayerBuilder.push]
  split <;> rfl

theorem pushList_time : ∀ (ts : List Tup) (x : Tup), ts.getLast? = some x →
    ∀ lb : LayerBuilder, (lb.pushList ts).time = x.2.2.1
  | [], x, h => by simp at h
  | [y], x, h => by
    simp only [List.getLast?_singleton, Option.some.injEq] at h
    subst h
    intro lb
    exact push_time lb y
  | y :: z :: zs, x, h => by
    intro lb
    have h2 : (z :: zs).getLast? = some x := by
      rwa [List.getLast?_cons_cons] at h
    exact pushList_time (z :: zs) x h2 (lb.push y)

/-- **C10.** Every tuple of the layer returned by the buffered builder's
`done` carries the single time of the builder's `time` field, which is the
time argument of the most recent `push`; differing pushed times are silently
overwritten by the last one. -/
theorem layer_builder_uniform_time (ts : List Tup) (x : Tup) (lo up : List ℕ)
    (h : ts.getLast? = some x) :
    ∀ y ∈ ((LayerBuilder.new.pushList ts).done lo up).contents, y.2.2.1 = x.2.2.1 := by
  intro y hy
  have htime : (LayerBuilder.new.pushList ts).time = x.2.2.1 :=
    pushList_time ts x h LayerBuilder.new
  simp only [LayerBuilder.done, Layer.contents] at hy
  split at hy
  · rw [flatten_buildTrie] at hy
    rw [← htime]
    exact flushTuples_times _ _ y hy
  · rw [flatten_buildTrie] at hy
    rw [← htime]
    exact walk_times _ _ _ _ y hy

/-! ### Rebuilding grouped tuples -/

theorem buildVals_head (x : ℕ × ℕ × ℤ) (xs : List (ℕ × ℕ × ℤ)) :
    ∃ ts vr, buildVals (x :: xs) = (x.1, ts) :: vr := by
  obtain ⟨v, t, d⟩ := x
  simp only [buildVals]
  cases buildVals xs with
  | nil => exact ⟨[(t, d)], [], rfl⟩
  | cons vn vr =>
    obtain ⟨v2, ts⟩ := vn
    by_cases hv : v = v2
    · subst hv; exact ⟨(t, d) :: ts, vr, by simp [consVal]⟩
    · exact ⟨[(t, d)], (v2, ts) :: vr, by simp [consVal, hv]⟩

theorem buildTrie_head (x : Tup) (xs : List Tup) :
    ∃ vs kr, buildTrie (x :: xs) = (x.1, vs) :: kr := by
  obtain ⟨k, v, t, d⟩ := x
  simp only [buildTrie]
  cases buildTrie xs with
  | nil => exact ⟨buildVals [(v, t, d)], [], rfl⟩
  | cons kn kr =>
    obtain ⟨k2, vs⟩ := kn
    rw [consKey_consE]
    by_cases hk : k = k2
    · subst hk; exact ⟨consVal (v, t, d) vs, kr, by simp⟩
    · exact ⟨buildVals [(v, t, d)], (k2, vs) :: kr, by simp [hk]⟩

theorem buildVals_block : ∀ (l : Leaf) (v : ℕ) (rest : List (ℕ × ℕ × ℤ)),
    l ≠ [] → (∀ x, rest.head? = some x → x.1 ≠ v) →
    buildVals (l.map (fun td => (v, td.1, td.2)) ++ rest) = (v, l) :: buildVals rest
  | [], _, _, hl, _ => absurd rfl hl
  | [td], v, rest, _, hrest => by
    obtain ⟨t, d⟩ := td
    simp only [List.map_cons, List.map_nil, List.nil_append, List.singleton_append, buildVals]
    cases rest with
    | nil => rfl
    | cons y ys =>
      obtain ⟨ts, vr, hb⟩ := buildVals_head y ys
      simp only [List.append_eq, List.nil_append]
      rw [hb, consVal_consE]
      have hy : ¬ v = y.1 := fun h => (hrest y rfl) h.symm
      rw [if_neg hy]
  | td :: td2 :: tds, v, rest, _, hrest => by
    obtain ⟨t, d⟩ := td
    have ih := buildVals_block (td2 :: tds) v rest (by simp) hrest
    simp only [List.map_cons, List.cons_append, buildVals] at ih ⊢
    rw [ih, consVal_consE, if_pos rfl]

theorem buildTrie_block : ∀ (vts : List (ℕ × ℕ × ℤ)) (k : ℕ) (b : List Tup),
    vts ≠ [] → (∀ x, b.head? = some x → x.1 ≠ k) →
    buildTrie (vts.map (fun x => (k, x)) ++ b) = (k, buildVals vts) :: buildTrie b
  | [], _, _, hl, _ => absurd rfl hl
  | [x], k, b, _, hb => by
    obtain ⟨v, t, d⟩ := x
    simp only [List.map_cons, List.map_nil, List.nil_append, List.singleton_append, buildTrie]
    cases b with
    | nil => rfl
    | cons y ys =>
      obtain ⟨vs, kr, hbd⟩ := buildTrie_head y ys
      simp only [List.append_eq, List.nil_append]
      rw [hbd, consKey_consE]
      have hy : ¬ k = y.1 := fun h => (hb y rfl) h.symm
      rw [if_neg hy]
  | x :: x2 :: xs, k, b, _, hb => by
    obtain ⟨v, t, d⟩ := x
    have ih := buildTrie_block (x2 :: xs) k b (by simp) hb
    simp only [List.map_cons, List.cons_append, buildTrie] at ih ⊢
    rw [ih, consKey_consE, if_pos rfl]
    rfl

theorem flattenVals_head_val : ∀ (vr : ValNode), (∀ vn ∈ vr, vn.2 ≠ []) →
    ∀ x, (flattenVals vr).head? = some x → ∃ vn, vr.head? = some vn ∧ x.1 = vn.1 := by
  intro vr
  cases vr with
  | nil => intro _ x hx; simp [flattenVals] at hx
  | cons vn2 vr2 =>
    intro hne x hx
    obtain ⟨v2, l2⟩ := vn2
    have hl2 : l2 ≠ [] := hne (v2, l2) (List.mem_cons_self _ _)
    cases l2 with
    | nil => exact absurd rfl hl2
    | cons td tds =>
      simp only [flattenVals, List.flatMap_cons, List.map_cons, List.cons_append,
        List.head?_cons, Option.some.injEq] at hx
      exact ⟨(v2, td :: tds), rfl, by rw [← hx]⟩

theorem flattenVals_ne_nil (vs2 : ValNode) (hne : vs2 ≠ [])
    (hleaf : ∀ vn ∈ vs2, vn.2 ≠ []) : flattenVals vs2 ≠ [] := by
  cases vs2 with
  | nil => exact absurd rfl hne
  | cons vn vr =>
    obtain ⟨v, l⟩ := vn
    have hl : l ≠ [] := hleaf (v, l) (List.mem_cons_self _ _)
    cases l with
    | nil => exact absurd rfl hl
    | cons td tds => simp [flattenVals]

theorem buildVals_flattenVals : ∀ (vs2 : ValNode),
    (vs2.map Prod.fst).Chain' (· ≠ ·) → (∀ vn ∈ vs2, vn.2 ≠ []) →
    buildVals (flattenVals vs2) = vs2 := by
  intro vs2
  induction vs2 with
  | nil => intro _ _; rfl
  | cons vn vr ih =>
    intro hchain hleaf
    obtain ⟨v, l⟩ := vn
    have hl : l ≠ [] := hleaf (v, l) (List.mem_cons_self _ _)
    have hrest : ∀ x, (flattenVals vr).head? = some x → x.1 ≠ v := by
      intro x hx hcon
      obtain ⟨vn2, hvn2, hx1⟩ := flattenVals_head_val vr
        (fun q hq => hleaf q (List.mem_cons_of_mem _ hq)) x hx
      cases vr with
      | nil => simp at hvn2
      | cons vn3 vr3 =>
        have hch : ∀ h ∈ (List.map Prod.fst (vn3 :: vr3)).head?, v ≠ h :=
          (List.chain'_cons'.mp (by simpa using hchain)).1
        have hv32 : vn3 = vn2 := by simpa using hvn2
        exact hch vn3.1 (by simp) (by rw [hv32, ← hx1]; exact hcon.symm)
    show buildVals (l.map (fun td => (v, td.1, td.2)) ++ flattenVals vr) = (v, l) :: vr
    rw [buildVals_block l v (flattenVals vr) hl hrest]
    rw [ih (by simpa using (List.chain'_cons'.mp (by simpa using hchain)).2)
      (fun q hq => hleaf q (List.mem_cons_of_mem _ hq))]

/-! ### C5: advance fails exactly on a non-dominated time -/

theorem advanceLeaf_none_iff (adv : ℕ → List ℕ → Option ℕ) (f : List ℕ) (leaf : Leaf) :
    advanceLeaf adv f leaf = none ↔ ∃ td ∈ leaf, adv td.1 f = none := by
  induction leaf with
  | nil => simp [advanceLeaf]
  | cons td rest ih =>
    simp only [advanceLeaf, Option.bind_eq_bind, List.mem_cons]
    cases h : adv td.1 f with
    | none => simp [h]
    | some t2 =>
      cases h2 : advanceLeaf adv f rest with
      | none =>
        simp only [h2, Option.none_bind, Option.some_bind, true_iff]
        obtain ⟨td2, hmem, hnone⟩ := ih.mp h2
        exact ⟨td2, Or.inr hmem, hnone⟩
      | some r =>
        simp only [h2, Option.some_bind, pure]
        constructor
        · intro hcon; simp at hcon
        · rintro ⟨td2, htd2, hnone⟩
          rcases htd2 with rfl | hmem
          · rw [h] at hnone; simp at hnone
          · have : advanceLeaf adv f rest = none := ih.mpr ⟨td2, hmem, hnone⟩
            rw [h2] at this; simp at this

theorem advanceKeyTuples_none_iff (adv : ℕ → List ℕ → Option ℕ) (f : List ℕ) (k : ℕ)
    (vs : ValNode) :
    advanceKeyTuples adv f k vs = none ↔ ∃ vn ∈ vs, ∃ td ∈ vn.2, adv td.1 f = none := by
  induction vs with
  | nil => simp [advanceKeyTuples]
  | cons vn vr ih =>
    obtain ⟨v, leaf⟩ := vn
    simp only [advanceKeyTuples, Option.bind_eq_bind, List.mem_cons]
    cases h : advanceLeaf adv f leaf with
    | none =>
      simp only [h, Option.none_bind, true_iff]
      obtain ⟨td, hmem, hnone⟩ := (advanceLeaf_none_iff adv f leaf).mp h
      exact ⟨(v, leaf), Or.inl rfl, td, hmem, hnone⟩
    | some moved =>
      cases h2 : advanceKeyTuples adv f k vr with
      | none =>
        simp only [h2, Option.none_bind, Option.some_bind, true_iff]
        obtain ⟨vn2, hmem, hrest⟩ := ih.mp h2
        exact ⟨vn2, Or.inr hmem, hrest⟩
      | some rest =>
        simp only [h2, Option.some_bind, pure]
        constructor
        · intro hcon; simp at hcon
        · rintro ⟨vn2, hvn2, td, htd, hnone⟩
          rcases hvn2 with rfl | hmem
          · have : advanceLeaf adv f leaf = none :=
              (advanceLeaf_none_iff adv f leaf).mpr ⟨td, htd, hnone⟩
            rw [h] at this; simp at this
          · have : advanceKeyTuples adv f k vr = none := ih.mpr ⟨vn2, hmem, td, htd, hnone⟩
            rw [h2] at this; simp at this

theorem advanceTuples_none_iff (adv : ℕ → List ℕ → Option ℕ) (f : List ℕ) (tr : Trie) :
    advanceTuples adv f tr = none ↔
      ∃ kn ∈ tr, ∃ vn ∈ kn.2, ∃ td ∈ vn.2, adv td.1 f = none := by
  induction tr with
  | nil => simp [advanceTuples]
  | cons kn kr ih =>
    obtain ⟨k, vs⟩ := kn
    simp only [advanceTuples, Option.bind_eq_bind, List.mem_cons]
    cases h : advanceKeyTuples adv f k vs with
    | none =>
      simp only [h, Option.none_bind, true_iff]
      obtain ⟨vn, hvn, td, htd, hnone⟩ := (advanceKeyTuples_none_iff adv f k vs).mp h
      exact ⟨(k, vs), Or.inl rfl, vn, hvn, td, htd, hnone⟩
    | some a =>
      cases h2 : advanceTuples adv f kr with
      | none =>
        simp only [h2, Option.none_bind, Option.some_bind, true_iff]
        obtain ⟨kn2, hmem, hrest⟩ := ih.mp h2
        exact ⟨kn2, Or.inr hmem, hrest⟩
      | some b =>
        simp only [h2, Option.some_bind, pure]
        constructor
        · intro hcon; simp at hcon
        · rintro ⟨kn2, hkn2, vn, hvn, td, htd, hnone⟩
          rcases hkn2 with rfl | hmem
          · have : advanceKeyTuples adv f k vs = none :=
              (advanceKeyTuples_none_iff adv f k vs).mpr ⟨vn, hvn, td, htd, hnone⟩
            rw [h] at this; simp at this
          · have : advanceTuples adv f kr = none := ih.mpr ⟨kn2, hmem, vn, hvn, td, htd, hnone⟩
            rw [h2] at this; simp at this

theorem valsLen_pos_of_mem {vs : ValNode} {vn : ℕ × Leaf} {td : ℕ × ℤ}
    (hvn : vn ∈ vs) (htd : td ∈ vn.2) : 0 < valsLen vs := by
  induction vs with
  | nil => simp at hvn
  | cons vn2 vr ihv =>
    rw [valsLen_cons]
    rcases List.mem_cons.mp hvn with rfl | hmem2
    · have : 0 < vn.2.length := List.length_pos.mpr (List.ne_nil_of_mem htd)
      omega
    · have := ihv hmem2
      omega

theorem trieLen_pos_of_mem {tr : Trie} {kn : ℕ × ValNode} {vn : ℕ × Leaf}
    {td : ℕ × ℤ} (hkn : kn ∈ tr) (hvn : vn ∈ kn.2) (htd : td ∈ vn.2) :
    0 < trieLen tr := by
  induction tr with
  | nil => simp at hkn
  | cons kn2 kr ih =>
    rw [trieLen_cons]
    rcases List.mem_cons.mp hkn with rfl | hmem
    · have := valsLen_pos_of_mem hvn htd
      omega
    · have := ih hmem
      omega

/-- **C5.** `Layer::advance_by` fails fatally (modelled as `none`, the
`unwrap` panic) exactly when `Time::advance_by` returns no result for some
time stored in the layer; when every stored time is dominated by the
frontier (its advance succeeds), the failure branch is unreachable and
`advance_by` is total. -/
theorem layer_advance_fatal (adv : ℕ → List ℕ → Option ℕ) (l : Layer) (f : List ℕ) :
    (Layer.advance adv l f = none ↔
      ∃ kn ∈ l.layer, ∃ vn ∈ kn.2, ∃ td ∈ vn.2, adv td.1 f = none)
  ∧ ((∀ kn ∈ l.layer, ∀ vn ∈ kn.2, ∀ td ∈ vn.2, (adv td.1 f).isSome) →
      (Layer.advance adv l f).isSome) := by
  constructor
  · rw [Layer.advance]
    split
    · cases h : advanceTuples adv f l.layer with
      | none =>
        simp only [h, Option.none_bind, Option.bind_eq_bind, true_iff]
        exact (advanceTuples_none_iff adv f l.layer).mp h
      | some ts =>
        simp only [h, Option.some_bind, Option.bind_eq_bind, pure]
        constructor
        · intro hcon; simp at hcon
        · intro hex
          have : advanceTuples adv f l.layer = none :=
            (advanceTuples_none_iff adv f l.layer).mpr hex
          rw [h] at this; simp at this
    · constructor
      · intro hcon; simp at hcon
      · rintro ⟨kn, hkn, vn, hvn, td, htd, _⟩
        exact absurd (trieLen_pos_of_mem hkn hvn htd) (by assumption)
  · intro hall
    rw [Option.isSome_iff_ne_none]
    intro hnone
    rw [Layer.advance] at hnone
    split at hnone
    · cases h : advanceTuples adv f l.layer with
      | none =>
        obtain ⟨kn, hkn, vn, hvn, td, htd, hfail⟩ :=
          (advanceTuples_none_iff adv f l.layer).mp h
        have := hall kn hkn vn hvn td htd
        rw [hfail] at this; simp at this
      | some ts => rw [h] at hnone; simp at hnone
    · simp at hnone

/-- **C5 witness.** With the total-order advance: on a singleton frontier the
advance of a concrete layer succeeds; on the empty frontier (which dominates
no time) it fails fatally. -/
theorem layer_advance_fatal_witness :
    (Layer.advance advTotal (unitLayer 3) [0]).isSome = true
  ∧ Layer.advance advTotal (unitLayer 3) [] = none :=
  ⟨(layer_advance_fatal advTotal (unitLayer 3) [0]).2 (by decide),
   (layer_advance_fatal advTotal (unitLayer 3) []).1.mpr (by decide)⟩

/-! ### C3: the content of `Layer::advance_by` -/

theorem advanceKeyTuples_key (adv : ℕ → List ℕ → Option ℕ) (f : List ℕ) (k : ℕ) :
    ∀ (vs : ValNode) (a : List Tup), advanceKeyTuples adv f k vs = some a →
      ∀ y ∈ a, y.1 = k := by
  intro vs
  induction vs with
  | nil =>
    intro a h
    simp only [advanceKeyTuples, Option.some.injEq] at h
    subst h; simp
  | cons vn vr ih =>
    intro a h y hy
    obtain ⟨v, leaf⟩ := vn
    simp only [advanceKeyTuples, Option.bind_eq_bind] at h
    cases hm : advanceLeaf adv f leaf with
    | none => rw [hm] at h; simp at h
    | some moved =>
      rw [hm] at h
      cases hr : advanceKeyTuples adv f k vr with
      | none => rw [hr] at h; simp at h
      | some arest =>
        rw [hr] at h
        simp only [Option.some_bind, pure, Option.some.injEq] at h
        subst h
        rcases List.mem_append.mp hy with hmem | hmem
        · obtain ⟨td, _, rfl⟩ := List.mem_map.mp hmem; rfl
        · exact ih arest hr y hmem

theorem advanceTuples_keys (adv : ℕ → List ℕ → Option ℕ) (f : List ℕ) :
    ∀ (tr : Trie) (b : List Tup), advanceTuples adv f tr = some b →
      ∀ y ∈ b, y.1 ∈ tr.map Prod.fst := by
  intro tr
  induction tr with
  | nil =>
    intro b h
    simp only [advanceTuples, Option.some.injEq] at h
    subst h; simp
  | cons kn kr ih =>
    intro b h y hy
    obtain ⟨k, vs⟩ := kn
    simp only [advanceTuples, Option.bind_eq_bind] at h
    cases ha : advanceKeyTuples adv f k vs with
    | none => rw [ha] at h; simp at h
    | some a =>
      rw [ha] at h
      cases hb : advanceTuples adv f kr with
      | none => rw [hb] at h; simp at h
      | some brest =>
        rw [hb] at h
        simp only [Option.some_bind, pure, Option.some.injEq] at h
        subst h
        rcases List.mem_append.mp hy with hmem | hmem
        · rw [advanceKeyTuples_key adv f k vs a ha y hmem]; simp
        · exact List.mem_cons_of_mem _ (ih brest hb y hmem)

theorem advanceSpecLeafVals_none_iff (adv : ℕ → List ℕ → Option ℕ) (f : List ℕ) (k : ℕ) :
    ∀ vs : ValNode,
      (advanceSpecLeafVals adv f vs = none ↔ advanceKeyTuples adv f k vs = none) := by
  intro vs
  induction vs with
  | nil => simp [advanceSpecLeafVals, advanceKeyTuples]
  | cons vn vr ih =>
    obtain ⟨v, leaf⟩ := vn
    simp only [advanceSpecLeafVals, advanceKeyTuples, Option.bind_eq_bind]
    cases hm : advanceLeaf adv f leaf with
    | none => simp
    | some moved =>
      simp only [Option.some_bind]
      cases h2 : advanceSpecLeafVals adv f vr with
      | none =>
        have h3 : advanceKeyTuples adv f k vr = none := ih.mp h2
        simp [h3]
      | some vs2 =>
        cases h3 : advanceKeyTuples adv f k vr with
        | none => exact absurd (ih.mpr h3) (by simp [h2])
        | some arest => simp [pure]

theorem advanceSpecTrie_none_iff (adv : ℕ → List ℕ → Option ℕ) (f : List ℕ) :
    ∀ tr : Trie,
      (advanceSpecTrie adv f tr = none ↔ advanceTuples adv f tr = none) := by
  intro tr
  induction tr with
  | nil => simp [advanceSpecTrie, advanceTuples]
  | cons kn kr ih =>
    obtain ⟨k, vs⟩ := kn
    simp only [advanceSpecTrie, advanceTuples, Option.bind_eq_bind]
    cases hv : advanceSpecLeafVals adv f vs with
    | none =>
      have h3 : advanceKeyTuples adv f k vs = none :=
        (advanceSpecLeafVals_none_iff adv f k vs).mp hv
      simp [h3]
    | some vs2 =>
      cases ha : advanceKeyTuples adv f k vs with
      | none => exact absurd ((advanceSpecLeafVals_none_iff adv f k vs).mpr ha) (by simp [hv])
      | some a =>
        simp only [Option.some_bind]
        cases h2 : advanceSpecTrie adv f kr with
        | none => simp [ih.mp h2]
        | some rest2 =>
          cases h3 : advanceTuples adv f kr with
          | none => exact absurd (ih.mpr h3) (by simp [h2])
          | some b => simp [pure]

theorem advanceKeyTuples_spec (adv : ℕ → List ℕ → Option ℕ) (f : List ℕ) (k : ℕ) :
    ∀ (vs : ValNode) (a : List Tup), advanceKeyTuples adv f k vs = some a →
      ∃ vs2, advanceSpecLeafVals adv f vs = some vs2 ∧
        a = (flattenVals vs2).map (fun x => (k, x)) ∧
        (vs2.map Prod.fst).Sublist (vs.map Prod.fst) ∧
        ∀ vn ∈ vs2, vn.2 ≠ [] := by
  intro vs
  induction vs with
  | nil =>
    intro a h
    simp only [advanceKeyTuples, Option.some.injEq] at h
    subst h
    exact ⟨[], rfl, rfl, List.Sublist.refl _, by simp⟩
  | cons vn vr ih =>
    intro a h
    obtain ⟨v, leaf⟩ := vn
    simp only [advanceKeyTuples, advanceSpecLeafVals, Option.bind_eq_bind] at h ⊢
    cases hm : advanceLeaf adv f leaf with
    | none => rw [hm] at h; simp at h
    | some moved =>
      rw [hm] at h
      simp only [Option.some_bind]
      cases hr : advanceKeyTuples adv f k vr with
      | none => rw [hr] at h; simp at h
      | some arest =>
        rw [hr] at h
        simp only [Option.some_bind, pure, Option.some.injEq] at h
        obtain ⟨vs2', hspec', heq', hsub', hne'⟩ := ih arest hr
        rw [hspec']
        simp only [Option.some_bind, pure, Option.some.injEq]
        by_cases hc : (consolidateT moved).isEmpty
        · refine ⟨vs2', by rw [if_pos hc], ?_, hsub'.trans (List.sublist_cons_self _ _), hne'⟩
          have hcnil : consolidateT moved = [] := List.isEmpty_iff.mp hc
          rw [← h, hcnil, heq']
          simp
        · refine ⟨(v, consolidateT moved) :: vs2', by rw [if_neg hc], ?_, ?_, ?_⟩
          · rw [← h, heq']
            simp only [flattenVals, List.flatMap_cons, List.map_append, List.map_map]
            congr 1
          · simpa using List.Sublist.cons₂ v hsub'
          · intro vn hvn
            rcases List.mem_cons.mp hvn with rfl | hmem
            · simpa using List.isEmpty_iff.not.mp hc
            · exact hne' vn hmem

theorem advanceSpecLeafVals_of_len_zero (adv : ℕ → List ℕ → Option ℕ) (f : List ℕ) :
    ∀ vs : ValNode, valsLen vs = 0 → advanceSpecLeafVals adv f vs = some [] := by
  intro vs
  induction vs with
  | nil => intro _; rfl
  | cons vn vr ih =>
    intro h
    obtain ⟨v, leaf⟩ := vn
    rw [valsLen_cons] at h
    have h1 : leaf.length + valsLen vr = 0 := by simpa using h
    have hleaf : leaf = [] := List.length_eq_zero.mp (by omega)
    subst hleaf
    simp only [advanceSpecLeafVals, advanceLeaf, Option.some_bind, Option.bind_eq_bind]
    rw [ih (by omega)]
    rfl

theorem advanceSpecTrie_of_len_zero (adv : ℕ → List ℕ → Option ℕ) (f : List ℕ) :
    ∀ tr : Trie, trieLen tr = 0 → advanceSpecTrie adv f tr = some [] := by
  intro tr
  induction tr with
  | nil => intro _; rfl
  | cons kn kr ih =>
    intro h
    obtain ⟨k, vs⟩ := kn
    rw [trieLen_cons] at h
    simp only [advanceSpecTrie, Option.bind_eq_bind]
    rw [advanceSpecLeafVals_of_len_zero adv f vs (by simp at h ⊢; omega)]
    rw [ih (by omega)]
    rfl

theorem advanceTuples_spec (adv : ℕ → List ℕ → Option ℕ) (f : List ℕ) :
    ∀ tr : Trie, (tr.map Prod.fst).Nodup →
      (∀ kn ∈ tr, (kn.2.map Prod.fst).Nodup) →
      (advanceTuples adv f tr).map buildTrie = advanceSpecTrie adv f tr := by
  intro tr
  induction tr with
  | nil => intro _ _; rfl
  | cons kn kr ih =>
    obtain ⟨k, vs⟩ := kn
    intro hkeys hvals
    simp only [advanceTuples, advanceSpecTrie, Option.bind_eq_bind]
    cases ha : advanceKeyTuples adv f k vs with
    | none =>
      have h2 : advanceSpecLeafVals adv f vs = none :=
        (advanceSpecLeafVals_none_iff adv f k vs).mpr ha
      simp [h2]
    | some a =>
      obtain ⟨vs2, hspec, haeq, hsub, hne⟩ := advanceKeyTuples_spec adv f k vs a ha
      rw [hspec]
      simp only [Option.some_bind]
      cases hb : advanceTuples adv f kr with
      | none =>
        have h3 : advanceSpecTrie adv f kr = none :=
          (advanceSpecTrie_none_iff adv f kr).mpr hb
        simp [h3]
      | some b =>
        have ihb := ih (by simpa using (List.nodup_cons.mp (by simpa using hkeys)).2)
          (fun q hq => hvals q (List.mem_cons_of_mem _ hq))
        rw [hb] at ihb
        rw [Option.map_some'] at ihb
        rw [← ihb]
        simp only [Option.some_bind, Option.map_some', pure, Option.some.injEq]
        cases hvs2 : vs2 with
        | nil =>
          subst hvs2
          have ha0 : a = [] := by rw [haeq]; rfl
          subst ha0
          rfl
        | cons vn2 vr2 =>
          rw [← hvs2]
          have hvs2ne : vs2 ≠ [] := by rw [hvs2]; simp
          have hflat : flattenVals vs2 ≠ [] := flattenVals_ne_nil vs2 hvs2ne hne
          have hbhead : ∀ x, b.head? = some x → x.1 ≠ k := by
            intro x hx hcon
            have hmem : x ∈ b := List.mem_of_mem_head? (by rw [hx]; rfl)
            have := advanceTuples_keys adv f kr b hb x hmem
            rw [hcon] at this
            exact (List.nodup_cons.mp (by simpa using hkeys)).1 this
          rw [haeq, buildTrie_block (flattenVals vs2) k b hflat hbhead]
          have hnodup2 : (vs2.map Prod.fst).Nodup :=
            (hvals (k, vs) (List.mem_cons_self _ _)).sublist hsub
          rw [buildVals_flattenVals vs2 hnodup2.chain' hne]
          rw [if_neg (by rw [hvs2]; simp)]

/-- **C3.** `Layer::advance_by` produces a layer in which, for each key and
value of the input, every leaf time has been replaced by its advance by the
frontier, equal advanced times under the same key and value are summed, zero
sums are dropped, and the description keeps the input's lower and upper
bounds while recording the frontier as `since`. -/
theorem layer_advance_spec (adv : ℕ → List ℕ → Option ℕ) (l : Layer) (f : List ℕ)
    (hkeys : (l.layer.map Prod.fst).Nodup)
    (hvals : ∀ kn ∈ l.layer, (kn.2.map Prod.fst).Nodup) :
    Layer.advance adv l f =
      (advanceSpecTrie adv f l.layer).map
        (fun tr => { layer := tr, desc := ⟨l.desc.lower, l.desc.upper, f⟩ }) := by
  rw [Layer.advance]
  split
  case isTrue h =>
    rw [← advanceTuples_spec adv f l.layer hkeys hvals]
    cases hat : advanceTuples adv f l.layer with
    | none => rfl
    | some ts => rfl
  case isFalse h =>
    simp only [Layer.len] at h
    rw [advanceSpecTrie_of_len_zero adv f l.layer (by omega)]
    rfl

/-- **C3 witness.** The characterization applied to a concrete two-key layer
and the total-order advance with frontier `[5]`. -/
theorem layer_advance_spec_witness :
    Layer.advance advTotal (rangeLayer 2) [5] =
      (advanceSpecTrie advTotal [5] (rangeLayer 2).layer).map
        (fun tr => { layer := tr,
                     desc := ⟨(rangeLayer 2).desc.lower, (rangeLayer 2).desc.upper, [5]⟩ }) :=
  layer_advance_spec advTotal (rangeLayer 2) [5] (by decide) (by decide)

/-- **C10 witness.** Two pushes with differing times `5` and `7`: every tuple
of the resulting layer carries the last time `7`. -/
theorem layer_builder_uniform_time_witness :
    (((LayerBuilder.new.pushList [(0, 0, 5, 1), (1, 1, 7, 1)]).done [] []).contents).all
      (fun y => y.2.2.1 == 7) = true := by
  have h := layer_builder_uniform_time [(0, 0, 5, 1), (1, 1, 7, 1)] (1, 1, 7, 1) [] []
    (by decide)
  exact List.all_eq_true.mpr (fun y hy => by
    have := h y hy
    simp [this])

/-! ### Properties of consolidation -/

theorem collapse_cons_nil {α : Type} [DecidableEq α] (a : α) (d0 : ℤ)
    (s : List (α × ℤ)) (h : collapse s = []) :
    collapse ((a, d0) :: s) = [(a, d0)] := by
  simp only [collapse, h]

theorem collapse_cons₂ {α : Type} [DecidableEq α] (a : α) (d0 : ℤ) (b : α) (e : ℤ)
    (r s : List (α × ℤ)) (h : collapse s = (b, e) :: r) :
    collapse ((a, d0) :: s) =
      if a = b then (a, d0 + e) :: r else (a, d0) :: (b, e) :: r := by
  simp only [collapse, h]

theorem collapse_fst_subset {α : Type} [DecidableEq α] :
    ∀ (s : List (α × ℤ)) (c : α), c ∈ (collapse s).map Prod.fst → c ∈ s.map Prod.fst := by
  intro s
  induction s with
  | nil => simp [collapse]
  | cons x xs ih =>
    intro c hc
    obtain ⟨a, d0⟩ := x
    cases hcol : collapse xs with
    | nil =>
      rw [collapse_cons_nil a d0 xs hcol] at hc
      simp at hc
      simp [hc]
    | cons be r =>
      obtain ⟨b, e⟩ := be
      rw [collapse_cons₂ a d0 b e r xs hcol] at hc
      by_cases hab : a = b
      · rw [if_pos hab] at hc
        simp only [List.map_cons, List.mem_cons] at hc ⊢
        rcases hc with rfl | hcr
        · exact Or.inl rfl
        · exact Or.inr (ih c (by rw [hcol]; simp [hcr]))
      · rw [if_neg hab] at hc
        simp only [List.map_cons, List.mem_cons] at hc ⊢
        rcases hc with rfl | hc2
        · exact Or.inl rfl
        · exact Or.inr (ih c (by rw [hcol]; simpa using hc2))

theorem collapse_pairwise {α : Type} [DecidableEq α] (le : α → α → Prop)
    [IsTrans α le] [IsAntisymm α le] :
    ∀ s : List (α × ℤ), List.Pairwise (fstRel le) s →
      ((collapse s).map Prod.fst).Pairwise (fun a b => le a b ∧ a ≠ b) := by
  intro s
  induction s with
  | nil => simp [collapse]
  | cons x xs ih =>
    intro hs
    obtain ⟨a, d0⟩ := x
    have hsort : ∀ y ∈ xs, le a y.1 := (List.pairwise_cons.mp hs).1
    have htail := (List.pairwise_cons.mp hs).2
    have ihp := ih htail
    cases hcol : collapse xs with
    | nil => rw [collapse_cons_nil a d0 xs hcol]; simp
    | cons be r =>
      obtain ⟨b, e⟩ := be
      rw [collapse_cons₂ a d0 b e r xs hcol]
      rw [hcol] at ihp
      by_cases hab : a = b
      · rw [if_pos hab]
        subst hab
        simpa using ihp
      · rw [if_neg hab]
        simp only [List.map_cons] at ihp ⊢
        refine List.Pairwise.cons ?_ ihp
        intro c hc
        have hcx : c ∈ xs.map Prod.fst := collapse_fst_subset xs c (by rw [hcol]; simpa using hc)
        obtain ⟨y, hy, rfl⟩ := List.mem_map.mp hcx
        refine ⟨hsort y hy, ?_⟩
        intro hac
        rcases List.mem_cons.mp hc with heq | hcr
        · exact hab (heq ▸ hac)
        · have hbc := (List.pairwise_cons.mp ihp).1 y.1 hcr
          have hb_in : b ∈ xs.map Prod.fst :=
            collapse_fst_subset xs b (by rw [hcol]; simp)
          obtain ⟨z, hz, hzb⟩ := List.mem_map.mp hb_in
          have hleab : le a b := hzb ▸ hsort z hz
          have hba : le b a := hac ▸ hbc.1
          exact hab (IsAntisymm.antisymm a b hleab hba)

theorem consolidateBy_fst_pairwise {α : Type} [DecidableEq α] (le : α → α → Prop)
    [DecidableRel le] [IsTotal α le] [IsTrans α le] [IsAntisymm α le]
    (l : List (α × ℤ)) :
    ((consolidateBy le l).map Prod.fst).Pairwise (fun a b => le a b ∧ a ≠ b) := by
  have hsorted : List.Pairwise (fstRel le) (List.insertionSort (fstRel le) l) :=
    List.sorted_insertionSort (fstRel le) l
  have hcol := collapse_pairwise le _ hsorted
  exact hcol.sublist (((List.filter_sublist _)).map Prod.fst)

theorem consolidateBy_fst_nodup {α : Type} [DecidableEq α] (le : α → α → Prop)
    [DecidableRel le] [IsTotal α le] [IsTrans α le] [IsAntisymm α le]
    (l : List (α × ℤ)) : ((consolidateBy le l).map Prod.fst).Nodup :=
  (consolidateBy_fst_pairwise le l).imp (fun h => h.2)

theorem consolidateBy_nonzero {α : Type} [DecidableEq α] (le : α → α → Prop)
    [DecidableRel le] (l : List (α × ℤ)) : ∀ p ∈ consolidateBy le l, p.2 ≠ 0 := by
  intro p hp
  have := (List.mem_filter.mp hp).2
  simpa using this

theorem consolidateBy_fst_mem {α : Type} [DecidableEq α] (le : α → α → Prop)
    [DecidableRel le] (l : List (α × ℤ)) :
    ∀ p ∈ consolidateBy le l, p.1 ∈ l.map Prod.fst := by
  intro p hp
  have h1 : p ∈ collapse (List.insertionSort (fstRel le) l) := (List.mem_filter.mp hp).1
  have h2 : p.1 ∈ (List.insertionSort (fstRel le) l).map Prod.fst :=
    collapse_fst_subset _ p.1 (List.mem_map_of_mem _ h1)
  have h3 := (List.perm_insertionSort (fstRel le) l).map Prod.fst
  exact h3.mem_iff.mp h2

theorem collapse_of_fst_nodup {α : Type} [DecidableEq α] :
    ∀ s : List (α × ℤ), (s.map Prod.fst).Nodup → collapse s = s := by
  intro s
  induction s with
  | nil => intro _; rfl
  | cons x xs ih =>
    intro hs
    obtain ⟨a, d0⟩ := x
    rw [List.map_cons] at hs
    have hs1 := List.nodup_cons.mp hs
    have hcol : collapse xs = xs := ih hs1.2
    cases xs with
    | nil => rfl
    | cons y ys =>
      obtain ⟨b, e⟩ := y
      have hab : a ≠ b := fun h => hs1.1 (by simp [h])
      rw [collapse_cons₂ a d0 b e ys ((b, e) :: ys) hcol, if_neg hab]

theorem consolidateBy_of_nodup {α : Type} [DecidableEq α] (le : α → α → Prop)
    [DecidableRel le] (l : List (α × ℤ)) (h : (l.map Prod.fst).Nodup)
    (h2 : ∀ p ∈ l, p.2 ≠ 0) :
    consolidateBy le l = List.insertionSort (fstRel le) l := by
  unfold consolidateBy
  have hperm := (List.perm_insertionSort (fstRel le) l).map Prod.fst
  have hnodup : ((List.insertionSort (fstRel le) l).map Prod.fst).Nodup :=
    hperm.nodup_iff.mpr h
  rw [collapse_of_fst_nodup _ hnodup]
  apply List.filter_eq_self.mpr
  intro p hp
  have : p ∈ l := (List.perm_insertionSort (fstRel le) l).mem_iff.mp hp
  simpa using h2 p this

/-! ### Properties of the trie merge -/

instance kvLE.antisymmInst : IsAntisymm (ℕ × ℕ) kvLE := by
  constructor
  intro a b hab hba
  rcases hab with h | ⟨h, h2⟩
  · rcases hba with h3 | ⟨h3, _⟩
    · omega
    · omega
  · rcases hba with h3 | ⟨h3, h4⟩
    · omega
    · exact Prod.ext h (Nat.le_antisymm h2 h4)

instance kvSL.antisymmInst : IsAntisymm ((ℕ × ℕ) × ℤ) kvSL := by
  constructor
  intro a b hab hba
  rcases hab with ⟨h1, h2⟩ | h
  · rcases hba with ⟨h3, _⟩ | h
    · exact absurd (IsAntisymm.antisymm a.1 b.1 h1 h3) h2
    · exact h.symm
  · exact h

theorem mergeValsGo_irrel :
    ∀ f g xs ys, xs.length + ys.length ≤ f → xs.length + ys.length ≤ g →
      mergeValsGo f xs ys = mergeValsGo g xs ys := by
  intro f
  induction f with
  | zero =>
    intro g xs ys hf _
    have hx : xs = [] := List.length_eq_zero.mp (by omega)
    have hy : ys = [] := List.length_eq_zero.mp (by omega)
    subst hx; subst hy
    cases g <;> rfl
  | succ f ih =>
    intro g xs ys hf hg
    match xs, ys with
    | [], ys => cases g <;> rfl
    | x :: xs, [] =>
      obtain ⟨g', rfl⟩ := Nat.exists_eq_succ_of_ne_zero
        (by simp at hg; omega : g ≠ 0)
      rfl
    | (v1, l1) :: xs, (v2, l2) :: ys =>
      simp only [List.length_cons] at hf hg
      obtain ⟨g', rfl⟩ := Nat.exists_eq_succ_of_ne_zero (by omega : g ≠ 0)
      simp only [mergeValsGo]
      split
      · rw [ih g' xs ((v2, l2) :: ys) (by simp; omega) (by simp; omega)]
      · split
        · rw [ih g' ((v1, l1) :: xs) ys (by simp; omega) (by simp; omega)]
        · split
          · rw [ih g' xs ys (by omega) (by omega)]
          · rw [ih g' xs ys (by omega) (by omega)]

theorem mergeTrieGo_irrel :
    ∀ f g xs ys, xs.length + ys.length ≤ f → xs.length + ys.length ≤ g →
      mergeTrieGo f xs ys = mergeTrieGo g xs ys := by
  intro f
  induction f with
  | zero =>
    intro g xs ys hf _
    have hx : xs = [] := List.length_eq_zero.mp (by omega)
    have hy : ys = [] := List.length_eq_zero.mp (by omega)
    subst hx; subst hy
    cases g <;> rfl
  | succ f ih =>
    intro g xs ys hf hg
    match xs, ys with
    | [], ys => cases g <;> rfl
    | x :: xs, [] =>
      obtain ⟨g', rfl⟩ := Nat.exists_eq_succ_of_ne_zero
        (by simp at hg; omega : g ≠ 0)
      rfl
    | (k1, v1) :: xs, (k2, v2) :: ys =>
      simp only [List.length_cons] at hf hg
      obtain ⟨g', rfl⟩ := Nat.exists_eq_succ_of_ne_zero (by omega : g ≠ 0)
      simp only [mergeTrieGo]
      split
      · rw [ih g' xs ((k2, v2) :: ys) (by simp; omega) (by simp; omega)]
      · split
        · rw [ih g' ((k1, v1) :: xs) ys (by simp; omega) (by simp; omega)]
        · split
          · rw [ih g' xs ys (by omega) (by omega)]
          · rw [ih g' xs ys (by omega) (by omega)]

theorem mergeVals_nil_left (ys : ValNode) : mergeVals [] ys = ys := by
  cases ys <;> rfl

theorem mergeVals_nil_right (xs : ValNode) : mergeVals xs [] = xs := by
  cases xs <;> rfl

theorem mergeVals_cons (v1 : ℕ) (l1 : Leaf) (xs : ValNode) (v2 : ℕ) (l2 : Leaf)
    (ys : ValNode) :
    mergeVals ((v1, l1) :: xs) ((v2, l2) :: ys) =
      if v1 < v2 then (v1, l1) :: mergeVals xs ((v2, l2) :: ys)
      else if v2 < v1 then (v2, l2) :: mergeVals ((v1, l1) :: xs) ys
      else if (mergeLeaf l1 l2).isEmpty then mergeVals xs ys
      else (v1, mergeLeaf l1 l2) :: mergeVals xs ys := by
  show mergeValsGo (Nat.succ (xs.length + 1 + ys.length)) _ _ = _
  rw [mergeValsGo]
  by_cases h1 : v1 < v2
  · rw [if_pos h1, if_pos h1,
      mergeValsGo_irrel (xs.length + 1 + ys.length) (xs.length + (ys.length + 1))
        xs ((v2, l2) :: ys) (by simp only [List.length_cons]; omega)
        (by simp only [List.length_cons]; omega)]
    rfl
  · rw [if_neg h1, if_neg h1]
    by_cases h2 : v2 < v1
    · rw [if_pos h2, if_pos h2]
      rfl
    · rw [if_neg h2, if_neg h2]
      show (if (mergeLeaf l1 l2).isEmpty then mergeValsGo (xs.length + 1 + ys.length) xs ys
            else (v1, mergeLeaf l1 l2) :: mergeValsGo (xs.length + 1 + ys.length) xs ys) = _
      by_cases h3 : (mergeLeaf l1 l2).isEmpty = true
      · rw [if_pos h3, if_pos h3,
          mergeValsGo_irrel (xs.length + 1 + ys.length) (xs.length + ys.length) xs ys
            (by omega) (by omega)]
        rfl
      · rw [if_neg h3, if_neg h3,
          mergeValsGo_irrel (xs.length + 1 + ys.length) (xs.length + ys.length) xs ys
            (by omega) (by omega)]
        rfl

theorem mergeTrie_nil_left (ys : Trie) : mergeTrie [] ys = ys := by
  cases ys <;> rfl

theorem mergeTrie_nil_right (xs : Trie) : mergeTrie xs [] = xs := by
  cases xs <;> rfl

theorem mergeTrie_cons (k1 : ℕ) (v1 : ValNode) (xs : Trie) (k2 : ℕ) (v2 : ValNode)
    (ys : Trie) :
    mergeTrie ((k1, v1) :: xs) ((k2, v2) :: ys) =
      if k1 < k2 then (k1, v1) :: mergeTrie xs ((k2, v2) :: ys)
      else if k2 < k1 then (k2, v2) :: mergeTrie ((k1, v1) :: xs) ys
      else if (mergeVals v1 v2).isEmpty then mergeTrie xs ys
      else (k1, mergeVals v1 v2) :: mergeTrie xs ys := by
  show mergeTrieGo (Nat.succ (xs.length + 1 + ys.length)) _ _ = _
  rw [mergeTrieGo]
  by_cases h1 : k1 < k2
  · rw [if_pos h1, if_pos h1,
      mergeTrieGo_irrel (xs.length + 1 + ys.length) (xs.length + (ys.length + 1))
        xs ((k2, v2) :: ys) (by simp only [List.length_cons]; omega)
        (by simp only [List.length_cons]; omega)]
    rfl
  · rw [if_neg h1, if_neg h1]
    by_cases h2 : k2 < k1
    · rw [if_pos h2, if_pos h2]
      rfl
    · rw [if_neg h2, if_neg h2]
      show (if (mergeVals v1 v2).isEmpty then mergeTrieGo (xs.length + 1 + ys.length) xs ys
            else (k1, mergeVals v1 v2) :: mergeTrieGo (xs.length + 1 + ys.length) xs ys) = _
      by_cases h3 : (mergeVals v1 v2).isEmpty = true
      · rw [if_pos h3, if_pos h3,
          mergeTrieGo_irrel (xs.length + 1 + ys.length) (xs.length + ys.length) xs ys
            (by omega) (by omega)]
        rfl
      · rw [if_neg h3, if_neg h3,
          mergeTrieGo_irrel (xs.length + 1 + ys.length) (xs.length + ys.length) xs ys
            (by omega) (by omega)]
        rfl

theorem consolidateT_fst_nodup (l : Leaf) : ((consolidateT l).map Prod.fst).Nodup :=
  consolidateBy_fst_nodup (· ≤ ·) l

theorem consolidateT_nonzero (l : Leaf) : ∀ td ∈ consolidateT l, td.2 ≠ 0 :=
  consolidateBy_nonzero (· ≤ ·) l

theorem mergeVals_fst_mem : ∀ (xs ys : ValNode), ∀ c ∈ (mergeVals xs ys).map Prod.fst,
    c ∈ xs.map Prod.fst ∨ c ∈ ys.map Prod.fst := by
  intro xs
  induction xs with
  | nil => intro ys c hc; rw [mergeVals_nil_left] at hc; exact Or.inr hc
  | cons x xs ih =>
    intro ys
    induction ys with
    | nil => intro c hc; rw [mergeVals_nil_right] at hc; exact Or.inl hc
    | cons y ys ihy =>
      intro c hc
      obtain ⟨v1, l1⟩ := x
      obtain ⟨v2, l2⟩ := y
      rw [mergeVals_cons] at hc
      by_cases h1 : v1 < v2
      · rw [if_pos h1] at hc
        simp only [List.map_cons, List.mem_cons] at hc ⊢
        rcases hc with rfl | hc2
        · exact Or.inl (Or.inl rfl)
        · rcases ih ((v2, l2) :: ys) c hc2 with h | h
          · exact Or.inl (Or.inr h)
          · exact Or.inr (by simpa using h)
      · rw [if_neg h1] at hc
        by_cases h2 : v2 < v1
        · rw [if_pos h2] at hc
          simp only [List.map_cons, List.mem_cons] at hc ⊢
          rcases hc with rfl | hc2
          · exact Or.inr (Or.inl rfl)
          · rcases ihy c (by simpa using hc2) with h | h
            · exact Or.inl (by simpa using h)
            · exact Or.inr (Or.inr h)
        · by_cases h3 : (mergeLeaf l1 l2).isEmpty = true
          · rw [if_neg h2, if_pos h3] at hc
            rcases ih ys c hc with h | h
            · exact Or.inl (by simp [h])
            · exact Or.inr (by simp [h])
          · rw [if_neg h2, if_neg h3] at hc
            simp only [List.map_cons, List.mem_cons] at hc ⊢
            rcases hc with rfl | hc2
            · exact Or.inl (Or.inl rfl)
            · rcases ih ys c hc2 with h | h
              · exact Or.inl (Or.inr h)
              · exact Or.inr (Or.inr h)

theorem mergeVals_wfs : ∀ (xs ys : ValNode), ValsWFs xs → ValsWFs ys →
    ValsWFs (mergeVals xs ys) := by
  intro xs
  induction xs with
  | nil => intro ys _ hy; rw [mergeVals_nil_left]; exact hy
  | cons x xs ih =>
    intro ys
    induction ys with
    | nil => intro hx _; rw [mergeVals_nil_right]; exact hx
    | cons y ys ihy =>
      intro hx hy
      obtain ⟨v1, l1⟩ := x
      obtain ⟨v2, l2⟩ := y
      obtain ⟨hxp, hxl⟩ := hx
      obtain ⟨hyp, hyl⟩ := hy
      simp only [List.map_cons] at hxp hyp
      have hxp1 := List.pairwise_cons.mp hxp
      have hyp1 := List.pairwise_cons.mp hyp
      have hxtail : ValsWFs xs := ⟨hxp1.2, fun q hq => hxl q (List.mem_cons_of_mem _ hq)⟩
      have hytail : ValsWFs ys := ⟨hyp1.2, fun q hq => hyl q (List.mem_cons_of_mem _ hq)⟩
      have hxfull : ValsWFs ((v1, l1) :: xs) := ⟨by simpa using hxp, hxl⟩
      have hyfull : ValsWFs ((v2, l2) :: ys) := ⟨by simpa using hyp, hyl⟩
      rw [mergeVals_cons]
      by_cases h1 : v1 < v2
      · rw [if_pos h1]
        have hm := ih ((v2, l2) :: ys) hxtail hyfull
        refine ⟨?_, ?_⟩
        · simp only [List.map_cons]
          refine List.Pairwise.cons ?_ hm.1
          intro c hc
          rcases mergeVals_fst_mem xs ((v2, l2) :: ys) c hc with h | h
          · exact hxp1.1 c h
          · simp only [List.map_cons, List.mem_cons] at h
            rcases h with rfl | h
            · exact h1
            · exact h1.trans (hyp1.1 c h)
        · intro vn hvn
          rcases List.mem_cons.mp hvn with rfl | hmem
          · exact hxl _ (List.mem_cons_self _ _)
          · exact hm.2 vn hmem
      · rw [if_neg h1]
        by_cases h2 : v2 < v1
        · rw [if_pos h2]
          have hm := ihy hxfull hytail
          refine ⟨?_, ?_⟩
          · simp only [List.map_cons]
            refine List.Pairwise.cons ?_ hm.1
            intro c hc
            rcases mergeVals_fst_mem ((v1, l1) :: xs) ys c hc with h | h
            · simp only [List.map_cons, List.mem_cons] at h
              rcases h with rfl | h
              · exact h2
              · exact h2.trans (hxp1.1 c h)
            · exact hyp1.1 c h
          · intro vn hvn
            rcases List.mem_cons.mp hvn with rfl | hmem
            · exact hyl _ (List.mem_cons_self _ _)
            · exact hm.2 vn hmem
        · have hveq : v1 = v2 := by omega
          have hm := ih ys hxtail hytail
          by_cases h3 : (mergeLeaf l1 l2).isEmpty = true
          · rw [if_neg h2, if_pos h3]
            exact hm
          · rw [if_neg h2, if_neg h3]
            refine ⟨?_, ?_⟩
            · simp only [List.map_cons]
              refine List.Pairwise.cons ?_ hm.1
              intro c hc
              rcases mergeVals_fst_mem xs ys c hc with h | h
              · exact hxp1.1 c h
              · exact hveq ▸ hyp1.1 c h
            · intro vn hvn
              rcases List.mem_cons.mp hvn with rfl | hmem
              · exact ⟨consolidateT_fst_nodup _, consolidateT_nonzero _⟩
              · exact hm.2 vn hmem

theorem mergeTrie_fst_mem : ∀ (xs ys : Trie), ∀ c ∈ (mergeTrie xs ys).map Prod.fst,
    c ∈ xs.map Prod.fst ∨ c ∈ ys.map Prod.fst := by
  intro xs
  induction xs with
  | nil => intro ys c hc; rw [mergeTrie_nil_left] at hc; exact Or.inr hc
  | cons x xs ih =>
    intro ys
    induction ys with
    | nil => intro c hc; rw [mergeTrie_nil_right] at hc; exact Or.inl hc
    | cons y ys ihy =>
      intro c hc
      obtain ⟨k1, v1⟩ := x
      obtain ⟨k2, v2⟩ := y
      rw [mergeTrie_cons] at hc
      by_cases h1 : k1 < k2
      · rw [if_pos h1] at hc
        simp only [List.map_cons, List.mem_cons] at hc ⊢
        rcases hc with rfl | hc2
        · exact Or.inl (Or.inl rfl)
        · rcases ih ((k2, v2) :: ys) c hc2 with h | h
          · exact Or.inl (Or.inr h)
          · exact Or.inr (by simpa using h)
      · rw [if_neg h1] at hc
        by_cases h2 : k2 < k1
        · rw [if_pos h2] at hc
          simp only [List.map_cons, List.mem_cons] at hc ⊢
          rcases hc with rfl | hc2
          · exact Or.inr (Or.inl rfl)
          · rcases ihy c (by simpa using hc2) with h | h
            · exact Or.inl (by simpa using h)
            · exact Or.inr (Or.inr h)
        · by_cases h3 : (mergeVals v1 v2).isEmpty = true
          · rw [if_neg h2, if_pos h3] at hc
            rcases ih ys c hc with h | h
            · exact Or.inl (by simp [h])
            · exact Or.inr (by simp [h])
          · rw [if_neg h2, if_neg h3] at hc
            simp only [List.map_cons, List.mem_cons] at hc ⊢
            rcases hc with rfl | hc2
            · exact Or.inl (Or.inl rfl)
            · rcases ih ys c hc2 with h | h
              · exact Or.inl (Or.inr h)
              · exact Or.inr (Or.inr h)

theorem mergeTrie_wfs : ∀ (xs ys : Trie), TrieWFs xs → TrieWFs ys →
    TrieWFs (mergeTrie xs ys) := by
  intro xs
  induction xs with
  | nil => intro ys _ hy; rw [mergeTrie_nil_left]; exact hy
  | cons x xs ih =>
    intro ys
    induction ys with
    | nil => intro hx _; rw [mergeTrie_nil_right]; exact hx
    | cons y ys ihy =>
      intro hx hy
      obtain ⟨k1, v1⟩ := x
      obtain ⟨k2, v2⟩ := y
      obtain ⟨hxp, hxl⟩ := hx
      obtain ⟨hyp, hyl⟩ := hy
      simp only [List.map_cons] at hxp hyp
      have hxp1 := List.pairwise_cons.mp hxp
      have hyp1 := List.pairwise_cons.mp hyp
      have hxtail : TrieWFs xs := ⟨hxp1.2, fun q hq => hxl q (List.mem_cons_of_mem _ hq)⟩
      have hytail : TrieWFs ys := ⟨hyp1.2, fun q hq => hyl q (List.mem_cons_of_mem _ hq)⟩
      have hxfull : TrieWFs ((k1, v1) :: xs) := ⟨by simpa using hxp, hxl⟩
      have hyfull : TrieWFs ((k2, v2) :: ys) := ⟨by simpa using hyp, hyl⟩
      rw [mergeTrie_cons]
      by_cases h1 : k1 < k2
      · rw [if_pos h1]
        have hm := ih ((k2, v2) :: ys) hxtail hyfull
        refine ⟨?_, ?_⟩
        · simp only [List.map_cons]
          refine List.Pairwise.cons ?_ hm.1
          intro c hc
          rcases mergeTrie_fst_mem xs ((k2, v2) :: ys) c hc with h | h
          · exact hxp1.1 c h
          · simp only [List.map_cons, List.mem_cons] at h
            rcases h with rfl | h
            · exact h1
            · exact h1.trans (hyp1.1 c h)
        · intro kn hkn
          rcases List.mem_cons.mp hkn with rfl | hmem
          · exact hxl _ (List.mem_cons_self _ _)
          · exact hm.2 kn hmem
      · rw [if_neg h1]
        by_cases h2 : k2 < k1
        · rw [if_pos h2]
          have hm := ihy hxfull hytail
          refine ⟨?_, ?_⟩
          · simp only [List.map_cons]
            refine List.Pairwise.cons ?_ hm.1
            intro c hc
            rcases mergeTrie_fst_mem ((k1, v1) :: xs) ys c hc with h | h
            · simp only [List.map_cons, List.mem_cons] at h
              rcases h with rfl | h
              · exact h2
              · exact h2.trans (hxp1.1 c h)
            · exact hyp1.1 c h
          · intro kn hkn
            rcases List.mem_cons.mp hkn with rfl | hmem
            · exact hyl _ (List.mem_cons_self _ _)
            · exact hm.2 kn hmem
        · have hkeq : k1 = k2 := by omega
          have hm := ih ys hxtail hytail
          by_cases h3 : (mergeVals v1 v2).isEmpty = true
          · rw [if_neg h2, if_pos h3]
            exact hm
          · rw [if_neg h2, if_neg h3]
            refine ⟨?_, ?_⟩
            · simp only [List.map_cons]
              refine List.Pairwise.cons ?_ hm.1
              intro c hc
              rcases mergeTrie_fst_mem xs ys c hc with h | h
              · exact hxp1.1 c h
              · exact hkeq ▸ hyp1.1 c h
            · intro kn hkn
              rcases List.mem_cons.mp hkn with rfl | hmem
              · exact mergeVals_wfs v1 v2 (hxl (k1, v1) (List.mem_cons_self _ _))
                  (hyl (k2, v2) (List.mem_cons_self _ _))
              · exact hm.2 kn hmem

/-! ### Well-formed tries have consolidated content -/

theorem mem_flattenVals {x : ℕ × ℕ × ℤ} {vs : ValNode} :
    x ∈ flattenVals vs ↔ ∃ vn ∈ vs, ∃ td ∈ vn.2, x = (vn.1, td.1, td.2) := by
  simp only [flattenVals, List.mem_flatMap, List.mem_map]
  constructor
  · rintro ⟨vn, hvn, td, htd, rfl⟩
    exact ⟨vn, hvn, td, htd, rfl⟩
  · rintro ⟨vn, hvn, td, htd, rfl⟩
    exact ⟨vn, hvn, td, htd, rfl⟩

theorem mem_flattenTrie {y : Tup} {tr : Trie} :
    y ∈ flattenTrie tr ↔ ∃ kn ∈ tr, ∃ x ∈ flattenVals kn.2, y = (kn.1, x) := by
  simp only [flattenTrie, List.mem_flatMap, List.mem_map]
  constructor
  · rintro ⟨kn, hkn, x, hx, rfl⟩
    exact ⟨kn, hkn, x, hx, rfl⟩
  · rintro ⟨kn, hkn, x, hx, rfl⟩
    exact ⟨kn, hkn, x, hx, rfl⟩

theorem flattenVals_fst_mem {x : ℕ × ℕ × ℤ} {vs : ValNode} (h : x ∈ flattenVals vs) :
    x.1 ∈ vs.map Prod.fst := by
  obtain ⟨vn, hvn, td, _, rfl⟩ := mem_flattenVals.mp h
  exact List.mem_map_of_mem Prod.fst hvn

theorem flattenTrie_key_mem {y : Tup} {tr : Trie} (h : y ∈ flattenTrie tr) :
    y.1 ∈ tr.map Prod.fst := by
  obtain ⟨kn, hkn, x, _, rfl⟩ := mem_flattenTrie.mp h
  exact List.mem_map_of_mem Prod.fst hkn

theorem flattenVals_nodup : ∀ vs : ValNode, ValsWFs vs →
    ((flattenVals vs).map (fun x => (x.1, x.2.1))).Nodup := by
  intro vs
  induction vs with
  | nil => intro _; simp [flattenVals]
  | cons vn vr ih =>
    intro hwf
    obtain ⟨v, leaf⟩ := vn
    obtain ⟨hp, hl⟩ := hwf
    simp only [List.map_cons] at hp
    have hp1 := List.pairwise_cons.mp hp
    have htail : ValsWFs vr := ⟨hp1.2, fun q hq => hl q (List.mem_cons_of_mem _ hq)⟩
    have hleaf := hl (v, leaf) (List.mem_cons_self _ _)
    show ((leaf.map (fun td => (v, td.1, td.2)) ++ flattenVals vr).map
      (fun x => (x.1, x.2.1))).Nodup
    rw [List.map_append]
    apply List.Nodup.append
    · rw [List.map_map]
      have : ((fun x : ℕ × ℕ × ℤ => (x.1, x.2.1)) ∘ (fun td : ℕ × ℤ => (v, td.1, td.2)))
          = (fun td : ℕ × ℤ => ((v, td.1) : ℕ × ℕ)) := rfl
      rw [this]
      have h2 : (leaf.map (fun td : ℕ × ℤ => ((v, td.1) : ℕ × ℕ)))
          = (leaf.map Prod.fst).map (fun t => (v, t)) := by
        rw [List.map_map]; rfl
      rw [h2]
      exact hleaf.1.map (fun a b hab => by simpa using hab)
    · exact ih htail
    · intro p hp2 hq2
      have hpv : p.1 = v := by
        obtain ⟨x, hx2, rfl⟩ := List.mem_map.mp hp2
        obtain ⟨td, _, rfl⟩ := List.mem_map.mp hx2
        rfl
      obtain ⟨x, hx, rfl⟩ := List.mem_map.mp hq2
      have hmem := flattenVals_fst_mem hx
      rw [show x.1 = v from hpv] at hmem
      exact absurd (hp1.1 v hmem) (lt_irrefl v)

theorem flattenTrie_nodup : ∀ tr : Trie, TrieWFs tr →
    ((flattenTrie tr).map (fun y => (y.1, y.2.1, y.2.2.1))).Nodup := by
  intro tr
  induction tr with
  | nil => intro _; simp [flattenTrie]
  | cons kn kr ih =>
    intro hwf
    obtain ⟨k, vs⟩ := kn
    obtain ⟨hp, hl⟩ := hwf
    simp only [List.map_cons] at hp
    have hp1 := List.pairwise_cons.mp hp
    have htail : TrieWFs kr := ⟨hp1.2, fun q hq => hl q (List.mem_cons_of_mem _ hq)⟩
    have hvs := hl (k, vs) (List.mem_cons_self _ _)
    rw [flattenTrie_cons, List.map_append]
    apply List.Nodup.append
    · rw [List.map_map]
      have : ((fun y : Tup => (y.1, y.2.1, y.2.2.1)) ∘ (fun x : ℕ × ℕ × ℤ => ((k, x) : Tup)))
          = (fun x : ℕ × ℕ × ℤ => ((k, x.1, x.2.1) : ℕ × ℕ × ℕ)) := rfl
      rw [this]
      have h2 : (flattenVals vs).map (fun x : ℕ × ℕ × ℤ => ((k, x.1, x.2.1) : ℕ × ℕ × ℕ))
          = ((flattenVals vs).map (fun x => (x.1, x.2.1))).map (fun p => (k, p)) := by
        rw [List.map_map]; rfl
      rw [h2]
      exact (flattenVals_nodup vs hvs).map (fun a b hab => by simpa using hab)
    · exact ih htail
    · intro p hp2 hq2
      have hpk : p.1 = k := by
        obtain ⟨y2, hy2, rfl⟩ := List.mem_map.mp hp2
        obtain ⟨x, _, rfl⟩ := List.mem_map.mp hy2
        rfl
      obtain ⟨y, hy, rfl⟩ := List.mem_map.mp hq2
      have hmem := flattenTrie_key_mem hy
      rw [show y.1 = k from hpk] at hmem
      exact absurd (hp1.1 k hmem) (lt_irrefl k)

theorem flatten_nonzero : ∀ tr : Trie, TrieWFs tr →
    ∀ y ∈ flattenTrie tr, y.2.2.2 ≠ 0 := by
  intro tr hwf y hy
  obtain ⟨kn, hkn, x, hx, rfl⟩ := mem_flattenTrie.mp hy
  obtain ⟨vn, hvn, td, htd, rfl⟩ := mem_flattenVals.mp hx
  exact ((hwf.2 kn hkn).2 vn hvn).2 td htd

theorem flatten_consolidated (tr : Trie) (hwf : TrieWFs tr) : Consolidated tr :=
  ⟨flattenTrie_nodup tr hwf, flatten_nonzero tr hwf⟩

/-! ### The advance output is well-formed -/

theorem advanceSpecLeafVals_wfs (adv : ℕ → List ℕ → Option ℕ) (f : List ℕ) :
    ∀ (vs vs2 : ValNode), advanceSpecLeafVals adv f vs = some vs2 →
      (vs.map Prod.fst).Pairwise (· < ·) →
      ValsWFs vs2 ∧ (vs2.map Prod.fst).Sublist (vs.map Prod.fst) := by
  intro vs
  induction vs with
  | nil =>
    intro vs2 h _
    simp only [advanceSpecLeafVals, Option.some.injEq] at h
    subst h
    exact ⟨⟨by simp, by simp⟩, by simp⟩
  | cons vn vr ih =>
    intro vs2 h hp
    obtain ⟨v, leaf⟩ := vn
    simp only [advanceSpecLeafVals, Option.bind_eq_bind] at h
    cases hm : advanceLeaf adv f leaf with
    | none => rw [hm] at h; simp at h
    | some moved =>
      rw [hm] at h
      cases hr : advanceSpecLeafVals adv f vr with
      | none => rw [hr] at h; simp at h
      | some vs2' =>
        rw [hr] at h
        simp only [Option.some_bind, pure, Option.some.injEq] at h
        simp only [List.map_cons] at hp
        have hp1 := List.pairwise_cons.mp hp
        obtain ⟨hwf', hsub'⟩ := ih vs2' hr hp1.2
        by_cases hc : (consolidateT moved).isEmpty = true
        · rw [if_pos hc] at h
          subst h
          exact ⟨hwf', hsub'.trans (List.sublist_cons_self _ _)⟩
        · rw [if_neg hc] at h
          subst h
          refine ⟨⟨?_, ?_⟩, ?_⟩
          · simp only [List.map_cons]
            refine List.Pairwise.cons ?_ hwf'.1
            intro c hc2
            exact hp1.1 c (hsub'.mem hc2)
          · intro q hq
            rcases List.mem_cons.mp hq with rfl | hmem
            · exact ⟨consolidateT_fst_nodup _, consolidateT_nonzero _⟩
            · exact hwf'.2 q hmem
          · simpa using List.Sublist.cons₂ v hsub'

theorem advanceSpecTrie_wfs (adv : ℕ → List ℕ → Option ℕ) (f : List ℕ) :
    ∀ (tr tr2 : Trie), advanceSpecTrie adv f tr = some tr2 → TrieWFs tr →
      TrieWFs tr2 ∧ (tr2.map Prod.fst).Sublist (tr.map Prod.fst) := by
  intro tr
  induction tr with
  | nil =>
    intro tr2 h _
    simp only [advanceSpecTrie, Option.some.injEq] at h
    subst h
    exact ⟨⟨by simp, by simp⟩, by simp⟩
  | cons kn kr ih =>
    intro tr2 h hwf
    obtain ⟨k, vs⟩ := kn
    obtain ⟨hp, hl⟩ := hwf
    simp only [List.map_cons] at hp
    have hp1 := List.pairwise_cons.mp hp
    have htail : TrieWFs kr := ⟨hp1.2, fun q hq => hl q (List.mem_cons_of_mem _ hq)⟩
    simp only [advanceSpecTrie, Option.bind_eq_bind] at h
    cases hv : advanceSpecLeafVals adv f vs with
    | none => rw [hv] at h; simp at h
    | some vs2 =>
      rw [hv] at h
      cases hr : advanceSpecTrie adv f kr with
      | none => rw [hr] at h; simp at h
      | some rest2 =>
        rw [hr] at h
        simp only [Option.some_bind, pure, Option.some.injEq] at h
        obtain ⟨hrest_wf, hrest_sub⟩ := ih rest2 hr htail
        by_cases hc : vs2.isEmpty = true
        · rw [if_pos hc] at h
          subst h
          exact ⟨hrest_wf, hrest_sub.trans (List.sublist_cons_self _ _)⟩
        · rw [if_neg hc] at h
          subst h
          have hvwf := advanceSpecLeafVals_wfs adv f vs vs2 hv
            (hl (k, vs) (List.mem_cons_self _ _)).1
          refine ⟨⟨?_, ?_⟩, ?_⟩
          · simp only [List.map_cons]
            refine List.Pairwise.cons ?_ hrest_wf.1
            intro c hc2
            exact hp1.1 c (hrest_sub.mem hc2)
          · intro q hq
            rcases List.mem_cons.mp hq with rfl | hmem
            · exact hvwf.1
            · exact hrest_wf.2 q hmem
          · simpa using List.Sublist.cons₂ k hrest_sub

/-- **C4.** Within any layer produced by `Layer::merge` or
`Layer::advance_by` (from well-formed inputs), no two distinct entries share
a `(key, value, time)` triple, and no entry has multiplicity zero: colliding
entries are summed into one and zero sums are dropped. -/
theorem merge_advance_consolidated (adv : ℕ → List ℕ → Option ℕ) (f : List ℕ) :
    (∀ a b : Layer, TrieWFs a.layer → TrieWFs b.layer →
      Consolidated (a.merge b).layer)
  ∧ (∀ c out : Layer, TrieWFs c.layer → Layer.advance adv c f = some out →
      Consolidated out.layer) := by
  constructor
  · intro a b ha hb
    exact flatten_consolidated _ (mergeTrie_wfs a.layer b.layer ha hb)
  · intro c out hc hadv
    have hkeys : (c.layer.map Prod.fst).Nodup :=
      hc.1.imp (fun h => Nat.ne_of_lt h)
    have hvals : ∀ kn ∈ c.layer, (kn.2.map Prod.fst).Nodup :=
      fun kn hkn => ((hc.2 kn hkn).1).imp (fun h => Nat.ne_of_lt h)
    rw [layer_advance_spec adv c f hkeys hvals] at hadv
    cases hs : advanceSpecTrie adv f c.layer with
    | none => rw [hs] at hadv; simp at hadv
    | some tr2 =>
      rw [hs] at hadv
      simp only [Option.map_some', Option.some.injEq] at hadv
      subst hadv
      exact flatten_consolidated _ (advanceSpecTrie_wfs adv f c.layer tr2 hs hc).1

/-- **C4 witness.** Merging two concrete well-formed layers and advancing a
concrete layer, the consolidation invariant holds. -/
theorem merge_advance_consolidated_witness :
    Consolidated ((rangeLayer 2).merge (unitLayer 5)).layer
  ∧ Consolidated (Layer.mk [(0, [(0, [(0, 1)])]), (1, [(0, [(0, 1)])])]
      ⟨[0], [], [0]⟩).layer :=
  ⟨(merge_advance_consolidated advTotal [0]).1 (rangeLayer 2) (unitLayer 5)
      (by decide) (by decide),
   (merge_advance_consolidated advTotal [0]).2 (rangeLayer 2)
      (Layer.mk [(0, [(0, [(0, 1)])]), (1, [(0, [(0, 1)])])] ⟨[0], [], [0]⟩)
      (by decide) (by decide)⟩

/-! ### Merge length bounds -/

theorem collapse_length_le {α : Type} [DecidableEq α] :
    ∀ s : List (α × ℤ), (collapse s).length ≤ s.length := by
  intro s
  induction s with
  | nil => simp [collapse]
  | cons x xs ih =>
    obtain ⟨a, d0⟩ := x
    cases hcol : collapse xs with
    | nil => rw [collapse_cons_nil a d0 xs hcol]; simp
    | cons be r =>
      obtain ⟨b, e⟩ := be
      rw [collapse_cons₂ a d0 b e r xs hcol]
      rw [hcol] at ih
      by_cases hab : a = b
      · rw [if_pos hab]
        simp only [List.length_cons] at ih ⊢
        omega
      · rw [if_neg hab]
        simp only [List.length_cons] at ih ⊢
        omega

theorem consolidateBy_length_le {α : Type} [DecidableEq α] (le : α → α → Prop)
    [DecidableRel le] (l : List (α × ℤ)) : (consolidateBy le l).length ≤ l.length := by
  unfold consolidateBy
  calc ((collapse (List.insertionSort (fstRel le) l)).filter (fun p => p.2 != 0)).length
      ≤ (collapse (List.insertionSort (fstRel le) l)).length := List.length_filter_le _ _
    _ ≤ (List.insertionSort (fstRel le) l).length := collapse_length_le _
    _ = l.length := (List.perm_insertionSort (fstRel le) l).length_eq

theorem mergeLeaf_length_le (l1 l2 : Leaf) :
    (mergeLeaf l1 l2).length ≤ l1.length + l2.length := by
  unfold mergeLeaf consolidateT
  calc (consolidateBy (· ≤ ·) (l1 ++ l2)).length
      ≤ (l1 ++ l2).length := consolidateBy_length_le _ _
    _ = l1.length + l2.length := List.length_append _ _

theorem mergeVals_len_le : ∀ (xs ys : ValNode),
    valsLen (mergeVals xs ys) ≤ valsLen xs + valsLen ys := by
  intro xs
  induction xs with
  | nil => intro ys; rw [mergeVals_nil_left]; omega
  | cons x xs ih =>
    intro ys
    induction ys with
    | nil => rw [mergeVals_nil_right]; omega
    | cons y ys ihy =>
      obtain ⟨v1, l1⟩ := x
      obtain ⟨v2, l2⟩ := y
      rw [mergeVals_cons]
      by_cases h1 : v1 < v2
      · rw [if_pos h1]
        have := ih ((v2, l2) :: ys)
        simp only [valsLen_cons] at this ⊢
        omega
      · rw [if_neg h1]
        by_cases h2 : v2 < v1
        · rw [if_pos h2]
          simp only [valsLen_cons] at ihy ⊢
          omega
        · have hml := mergeLeaf_length_le l1 l2
          have := ih ys
          by_cases h3 : (mergeLeaf l1 l2).isEmpty = true
          · rw [if_neg h2, if_pos h3]
            simp only [valsLen_cons]
            omega
          · rw [if_neg h2, if_neg h3]
            simp only [valsLen_cons]
            omega

theorem mergeTrie_len_le : ∀ (xs ys : Trie),
    trieLen (mergeTrie xs ys) ≤ trieLen xs + trieLen ys := by
  intro xs
  induction xs with
  | nil => intro ys; rw [mergeTrie_nil_left]; omega
  | cons x xs ih =>
    intro ys
    induction ys with
    | nil => rw [mergeTrie_nil_right]; omega
    | cons y ys ihy =>
      obtain ⟨k1, v1⟩ := x
      obtain ⟨k2, v2⟩ := y
      rw [mergeTrie_cons]
      by_cases h1 : k1 < k2
      · rw [if_pos h1]
        have := ih ((k2, v2) :: ys)
        simp only [trieLen_cons] at this ⊢
        omega
      · rw [if_neg h1]
        by_cases h2 : k2 < k1
        · rw [if_pos h2]
          simp only [trieLen_cons] at ihy ⊢
          omega
        · have hmv := mergeVals_len_le v1 v2
          have := ih ys
          by_cases h3 : (mergeVals v1 v2).isEmpty = true
          · rw [if_neg h2, if_pos h3]
            simp only [trieLen_cons]
            omega
          · rw [if_neg h2, if_neg h3]
            simp only [trieLen_cons]
            omega

theorem merge_len_le (a b : Layer) : (a.merge b).len ≤ a.len + b.len :=
  mergeTrie_len_le a.layer b.layer

/-! ### C8: the spine stack stays geometrically sized -/

theorem spineInv_nil : SpineInv [] := ⟨List.chain'_nil, by simp⟩

theorem spineInv_cons (x : Layer) (rest : List Layer) :
    SpineInv (x :: rest) ↔
      (∀ h ∈ rest.head?, 2 * x.len ≤ h.len) ∧ 1 ≤ x.len ∧ SpineInv rest := by
  unfold SpineInv
  rw [List.chain'_cons']
  constructor
  · rintro ⟨⟨hh, hc⟩, hall⟩
    exact ⟨hh, hall x (List.mem_cons_self _ _), hc,
      fun l hl => hall l (List.mem_cons_of_mem _ hl)⟩
  · rintro ⟨hh, hx, hc, hall⟩
    refine ⟨⟨hh, hc⟩, fun l hl => ?_⟩
    rcases List.mem_cons.mp hl with rfl | hm
    · exact hx
    · exact hall l hm

theorem absorbGo_stepE (blen fuel : ℕ) (l1 l2 : Layer) (rest : List Layer) :
    absorbGo blen (fuel + 1) (l1 :: l2 :: rest) =
      if l2.len < blen then
        (if 0 < (l1.merge l2).len then absorbGo blen fuel ((l1.merge l2) :: rest)
         else absorbGo blen fuel rest)
      else l1 :: l2 :: rest := rfl

theorem doublingGo_stepE (adv : ℕ → List ℕ → Option ℕ) (fr : List ℕ) (fuel : ℕ)
    (l1 l2 : Layer) (rest : List Layer) :
    doublingGo adv fr (fuel + 1) (l1 :: l2 :: rest) =
      if l2.len < 2 * l1.len then
        (if rest.isEmpty then
          match Layer.advance adv (l1.merge l2) fr with
          | none => none
          | some m2 =>
            if 0 < m2.len then doublingGo adv fr fuel (m2 :: rest)
            else doublingGo adv fr fuel rest
         else if 0 < (l1.merge l2).len then doublingGo adv fr fuel ((l1.merge l2) :: rest)
         else doublingGo adv fr fuel rest)
      else some (l1 :: l2 :: rest) := rfl

theorem absorbGo_inv (blen : ℕ) :
    ∀ fuel ls, ls.length ≤ fuel →
      (SpineInv ls ∨
        (∃ x rest, ls = x :: rest ∧ SpineInv rest ∧ 1 ≤ x.len ∧ x.len < 2 * blen ∧
          (∀ h ∈ rest.head?, x.len < h.len))) →
      (SpineInv (absorbGo blen fuel ls) ∨
        (∃ x rest, absorbGo blen fuel ls = x :: rest ∧ SpineInv rest ∧ 1 ≤ x.len ∧
          x.len < 2 * blen)) := by
  intro fuel
  induction fuel with
  | zero =>
    intro ls hf _
    have : ls = [] := List.length_eq_zero.mp (by omega)
    subst this
    exact Or.inl spineInv_nil
  | succ fuel ih =>
    intro ls hf hpre
    match ls with
    | [] => exact Or.inl spineInv_nil
    | [l] =>
      left
      rcases hpre with hinv | ⟨x, rest, heq, _, hx, _, _⟩
      · exact hinv
      · injection heq with h1 h2
        subst h1; subst h2
        exact (spineInv_cons l []).mpr ⟨by simp, hx, spineInv_nil⟩
    | l1 :: l2 :: rest =>
      simp only [List.length_cons] at hf
      rw [absorbGo_stepE]
      have hmlen : (l1.merge l2).len ≤ l1.len + l2.len := merge_len_le l1 l2
      by_cases hg : l2.len < blen
      · rw [if_pos hg]
        rcases hpre with hinv | ⟨x, rest2, heq, hrest, hx, _, hhead⟩
        · obtain ⟨hh1, hx1, hinv2⟩ := (spineInv_cons l1 (l2 :: rest)).mp hinv
          obtain ⟨hh2, hx2, hinv3⟩ := (spineInv_cons l2 rest).mp hinv2
          have h2l1 : 2 * l1.len ≤ l2.len := hh1 l2 rfl
          by_cases hpos : 0 < (l1.merge l2).len
          · rw [if_pos hpos]
            apply ih _ (by simp only [List.length_cons]; omega)
            right
            refine ⟨l1.merge l2, rest, rfl, hinv3, hpos, by omega, ?_⟩
            intro h hh
            have := hh2 h hh
            omega
          · rw [if_neg hpos]
            apply ih _ (by omega)
            exact Or.inl hinv3
        · injection heq with h1 h2
          subst h1; subst h2
          obtain ⟨hh2, hx2, hinv3⟩ := (spineInv_cons l2 rest).mp hrest
          have hxl2 : l1.len < l2.len := hhead l2 rfl
          by_cases hpos : 0 < (l1.merge l2).len
          · rw [if_pos hpos]
            apply ih _ (by simp only [List.length_cons]; omega)
            right
            refine ⟨l1.merge l2, rest, rfl, hinv3, hpos, by omega, ?_⟩
            intro h hh
            have := hh2 h hh
            omega
          · rw [if_neg hpos]
            apply ih _ (by omega)
            exact Or.inl hinv3
      · rw [if_neg hg]
        rcases hpre with hinv | ⟨x, rest2, heq, hrest, hx, hlt, _⟩
        · exact Or.inl hinv
        · injection heq with h1 h2
          subst h1; subst h2
          exact Or.inr ⟨l1, l2 :: rest, rfl, hrest, hx, hlt⟩

theorem absorb_inv (blen : ℕ) (ls : List Layer) (h : SpineInv ls) :
    SpineInv (absorb blen ls) ∨
      (∃ x rest, absorb blen ls = x :: rest ∧ SpineInv rest ∧ 1 ≤ x.len ∧
        x.len < 2 * blen) :=
  absorbGo_inv blen ls.length ls le_rfl (Or.inl h)

theorem doublingGo_inv (adv : ℕ → List ℕ → Option ℕ) (fr : List ℕ) :
    ∀ fuel ls, ls.length ≤ fuel →
      (ls = [] ∨
        (∃ x rest, ls = x :: rest ∧ SpineInv rest ∧ 1 ≤ x.len) ∨
        (∃ b x rest, ls = b :: x :: rest ∧ SpineInv rest ∧ 1 ≤ b.len ∧ 1 ≤ x.len ∧
          x.len < 2 * b.len)) →
      ∀ out, doublingGo adv fr fuel ls = some out → SpineInv out := by
  intro fuel
  induction fuel with
  | zero =>
    intro ls hf _ out hout
    have : ls = [] := List.length_eq_zero.mp (by omega)
    subst this
    simp only [doublingGo, Option.some.injEq] at hout
    subst hout
    exact spineInv_nil
  | succ fuel ih =>
    intro ls hf hpre out hout
    match ls with
    | [] =>
      have he : doublingGo adv fr (fuel + 1) ([] : List Layer) = some [] := rfl
      rw [he] at hout
      injection hout with h2
      subst h2
      exact spineInv_nil
    | [l] =>
      have he : doublingGo adv fr (fuel + 1) [l] = some [l] := rfl
      rw [he] at hout
      injection hout with h2
      subst h2
      rcases hpre with h1 | ⟨x, rest, heq, _, hx⟩ | ⟨b, x, rest, heq, _, _, _, _⟩
      · simp at h1
      · injection heq with h1 h2
        subst h1; subst h2
        exact (spineInv_cons l []).mpr ⟨by simp, hx, spineInv_nil⟩
      · simp at heq
    | l1 :: l2 :: rest =>
      simp only [List.length_cons] at hf
      rw [doublingGo_stepE] at hout
      have hfacts : SpineInv rest ∧ 1 ≤ l2.len := by
        rcases hpre with h1 | ⟨x, rest2, heq, hrest, hx⟩ | ⟨b, x, rest2, heq, hrest, _, hx, _⟩
        · simp at h1
        · injection heq with h1 h2
          subst h1; subst h2
          obtain ⟨_, hx2, hinv3⟩ := (spineInv_cons l2 rest).mp hrest
          exact ⟨hinv3, hx2⟩
        · injection heq with h1 h2
          injection h2 with h3 h4
          subst h1; subst h3; subst h4
          exact ⟨hrest, hx⟩
      by_cases hg : l2.len < 2 * l1.len
      · rw [if_pos hg] at hout
        by_cases hre : rest.isEmpty = true
        · have hrnil : rest = [] := List.isEmpty_iff.mp hre
          subst hrnil
          rw [if_pos hre] at hout
          cases hadv : Layer.advance adv (l1.merge l2) fr with
          | none => rw [hadv] at hout; simp at hout
          | some m2 =>
            rw [hadv] at hout
            have hout2 : (if 0 < m2.len then doublingGo adv fr fuel [m2]
                else doublingGo adv fr fuel []) = some out := hout
            by_cases hpos : 0 < m2.len
            · rw [if_pos hpos] at hout2
              exact ih _ (by
                have h1 : ([m2] : List Layer).length = 1 := rfl
                rw [h1]; omega)
                (Or.inr (Or.inl ⟨m2, [], rfl, spineInv_nil, hpos⟩)) out hout2
            · rw [if_neg hpos] at hout2
              exact ih _ (by
                have h1 : ([] : List Layer).length = 0 := rfl
                rw [h1]; omega) (Or.inl rfl) out hout2
        · rw [if_neg hre] at hout
          by_cases hpos : 0 < (l1.merge l2).len
          · rw [if_pos hpos] at hout
            exact ih _ (by simp only [List.length_cons]; omega)
              (Or.inr (Or.inl ⟨l1.merge l2, rest, rfl, hfacts.1, hpos⟩)) out hout
          · rw [if_neg hpos] at hout
            apply ih _ (by omega) ?_ out hout
            cases rest with
            | nil => exact Or.inl rfl
            | cons r1 r2 =>
              obtain ⟨_, hr1, hinvr2⟩ := (spineInv_cons r1 r2).mp hfacts.1
              exact Or.inr (Or.inl ⟨r1, r2, rfl, hinvr2, hr1⟩)
      · rw [if_neg hg] at hout
        injection hout with h2
        subst h2
        rcases hpre with h1 | ⟨x, rest2, heq, hrest, hx⟩ | ⟨b, x, rest2, heq, _, _, _, hlt⟩
        · simp at h1
        · injection heq with h1 h2
          subst h1; subst h2
          exact (spineInv_cons l1 (l2 :: rest)).mpr ⟨by intro h hh; cases hh; omega, hx, hrest⟩
        · injection heq with h1 h2
          injection h2 with h3 h4
          subst h1; subst h3; subst h4
          omega

theorem chain_total_bound : ∀ (ls : List Layer) (c : ℕ),
    ls.Chain' (fun a b => 2 * a.len ≤ b.len) → (∀ h ∈ ls.head?, c ≤ h.len) →
    ls ≠ [] → c * 2 ^ (ls.length - 1) ≤ totalLen ls := by
  intro ls
  induction ls with
  | nil => intro c _ _ hne; exact absurd rfl hne
  | cons x rest ih =>
    intro c hc hh _
    cases rest with
    | nil =>
      have hx := hh x rfl
      simp only [totalLen, List.map_cons, List.map_nil, List.sum_cons, List.sum_nil,
        List.length_cons, List.length_nil, pow_zero]
      omega
    | cons y r2 =>
      have hchain := List.chain'_cons.mp hc
      have hxy : 2 * x.len ≤ y.len := hchain.1
      have hih := ih (2 * c) hchain.2 (by
        intro h hh2
        cases hh2
        have hcx : c ≤ x.len := hh x rfl
        omega) (by simp)
      have hlen : (x :: y :: r2).length - 1 = ((y :: r2).length - 1) + 1 := by simp
      rw [hlen, pow_succ]
      have htot : totalLen (x :: y :: r2) = x.len + totalLen (y :: r2) := by
        simp [totalLen]
      rw [htot]
      calc c * (2 ^ ((y :: r2).length - 1) * 2)
          = 2 * c * 2 ^ ((y :: r2).length - 1) := by ring
        _ ≤ totalLen (y :: r2) := hih
        _ ≤ x.len + totalLen (y :: r2) := by omega

/-- **C8.** The spine stack invariant — every resident layer below the top
holds at least twice as many tuples as the layer directly above it, and no
empty layer is resident — holds initially and is preserved by every
successful insert; it forces `k` resident layers to hold at least
`2 ^ (k - 1)` resident tuples, so the layer count is logarithmic in the
total tuple count. -/
theorem spine_size_bound (adv : ℕ → List ℕ → Option ℕ) :
    (∀ t, SpineInv (Spine.new t).layers)
  ∧ (∀ s b s', SpineInv s.layers → Spine.insert adv s b = some s' →
      SpineInv s'.layers)
  ∧ (∀ ls, SpineInv ls → 0 < ls.length → 2 ^ (ls.length - 1) ≤ totalLen ls) := by
  refine ⟨fun t => spineInv_nil, ?_, ?_⟩
  · intro s b s' hinv h
    simp only [Spine.insert] at h
    by_cases hk : 0 < b.keys
    · rw [if_pos hk] at h
      have hpre : (if 0 < b.len then b :: absorb b.len s.layers
            else absorb b.len s.layers) = [] ∨
          (∃ x rest, (if 0 < b.len then b :: absorb b.len s.layers
            else absorb b.len s.layers) = x :: rest ∧ SpineInv rest ∧ 1 ≤ x.len) ∨
          (∃ bb x rest, (if 0 < b.len then b :: absorb b.len s.layers
            else absorb b.len s.layers) = bb :: x :: rest ∧ SpineInv rest ∧
            1 ≤ bb.len ∧ 1 ≤ x.len ∧ x.len < 2 * bb.len) := by
        rcases absorb_inv b.len s.layers hinv with ha | ⟨x, rest, hxeq, hrest, hx, hlt⟩
        · by_cases hb : 0 < b.len
          · rw [if_pos hb]
            exact Or.inr (Or.inl ⟨b, absorb b.len s.layers, rfl, ha, hb⟩)
          · rw [if_neg hb]
            cases hcase : absorb b.len s.layers with
            | nil => exact Or.inl rfl
            | cons z zs =>
              rw [hcase] at ha
              obtain ⟨_, hz, hinvz⟩ := (spineInv_cons z zs).mp ha
              exact Or.inr (Or.inl ⟨z, zs, rfl, hinvz, hz⟩)
        · by_cases hb : 0 < b.len
          · rw [if_pos hb, hxeq]
            exact Or.inr (Or.inr ⟨b, x, rest, rfl, hrest, hb, hx, hlt⟩)
          · exfalso
            omega
      cases hd : doubling adv s.frontier (if 0 < b.len then b :: absorb b.len s.layers
          else absorb b.len s.layers) with
      | none => rw [hd] at h; exact absurd h (by simp)
      | some out =>
        rw [hd] at h
        have hs' : s' = { s with layers := out } := by simpa [eq_comm] using h
        subst hs'
        exact doublingGo_inv adv s.frontier _ _ le_rfl hpre out hd
    · rw [if_neg hk] at h
      have hs' : s' = s := by simpa [eq_comm] using h
      subst hs'
      exact hinv
  · intro ls hinv hpos
    have := chain_total_bound ls 1 hinv.1
      (fun h hh => by
        have : h ∈ ls := by
          cases ls with
          | nil => simp at hh
          | cons z zs => cases hh; exact List.mem_cons_self _ _
        exact hinv.2 h this)
      (by intro hcon; rw [hcon] at hpos; simp at hpos)
    simpa using this

/-- **C8 witness.** The invariant holds for the empty spine, is preserved by
a concrete insert, and yields the `2 ^ (k - 1)` bound on a concrete stack. -/
theorem spine_size_bound_witness :
    SpineInv (Spine.new 0).layers
  ∧ SpineInv (Spine.mk [0] [unitLayer 0]).layers
  ∧ 2 ^ (([unitLayer 0] : List Layer).length - 1) ≤ totalLen [unitLayer 0] :=
  ⟨(spine_size_bound advTotal).1 0,
   (spine_size_bound advTotal).2.1 (Spine.new 0) (unitLayer 0)
      (Spine.mk [0] [unitLayer 0]) (by decide) (by decide),
   (spine_size_bound advTotal).2.2 [unitLayer 0] ⟨by simp, by decide⟩ (by decide)⟩

/-! ### C9: the 1, 1, 10 insertion scenario -/

/-- **C9 counterexample.** Inserting batches of sizes 1, 1 and 10 into an
empty spine never triggers the absorption phase: the absorption loop leaves
the stack unchanged in each of the three inserts, and when the size-10 batch
arrives only one layer is resident, so absorption cannot merge the two
size-1 layers into it. -/
theorem spine_scenario_counterexample :
    (c9b1.len = 1 ∧ c9b2.len = 1 ∧ c9b10.len = 10)
  ∧ Spine.insert advTotal (Spine.new 0) c9b1 = some c9s1
  ∧ absorb c9b1.len (Spine.new 0).layers = (Spine.new 0).layers
  ∧ Spine.insert advTotal c9s1 c9b2 = some c9s2
  ∧ absorb c9b2.len c9s1.layers = c9s1.layers
  ∧ c9s2.layers.length = 1
  ∧ Spine.insert advTotal c9s2 c9b10 = some c9s3
  ∧ absorb c9b10.len c9s2.layers = c9s2.layers
  ∧ c9s3.layers.length = 1 := by
  decide

/-- **C9 (amended).** Inserting batches of sizes 1, 1 and 10 into an empty
spine leaves a single resident layer rather than three, but the merging is
performed by the doubling phase: the two size-1 layers are merged during the
second insert's doubling phase, and the third insert's doubling phase folds
the size-10 batch into that result; the absorption phase performs no merge. -/
theorem spine_scenario_amended :
    Spine.insert advTotal (Spine.new 0) c9b1 = some c9s1
  ∧ Spine.insert advTotal c9s1 c9b2 = some c9s2
  ∧ Spine.insert advTotal c9s2 c9b10 = some c9s3
  ∧ c9s1.layers.map Layer.len = [1]
  ∧ c9s2.layers.map Layer.len = [2]
  ∧ c9s3.layers.map Layer.len = [12]
  ∧ doubling advTotal c9s1.frontier (c9b2 :: absorb c9b2.len c9s1.layers) =
      some c9s2.layers
  ∧ absorb c9b2.len c9s1.layers = c9s1.layers
  ∧ absorb c9b10.len c9s2.layers = c9s2.layers := by
  decide

/-! ### Builder equivalence -/

theorem ordPushList_builder : ∀ (ss : List Tup) (ob : OrdBuilder),
    (ob.pushList ss).builder = ob.builder ++ ss := by
  intro ss
  induction ss with
  | nil => intro ob; simp [OrdBuilder.pushList]
  | cons x xs ih =>
    intro ob
    show ((ob.push x).pushList xs).builder = _
    rw [ih (ob.push x)]
    simp [OrdBuilder.push]

theorem push_chunks (lb : LayerBuilder) (x : Tup) :
    (lb.push x).buffers.flatten ++ (lb.push x).buffer =
      lb.buffers.flatten ++ lb.buffer ++ [tupPair x] := by
  simp only [LayerBuilder.push]
  split
  · simp [tupPair]
  · simp [tupPair]

theorem pushList_chunks : ∀ (ts : List Tup) (lb : LayerBuilder),
    (lb.pushList ts).buffers.flatten ++ (lb.pushList ts).buffer =
      lb.buffers.flatten ++ lb.buffer ++ ts.map tupPair := by
  intro ts
  induction ts with
  | nil => intro lb; simp [LayerBuilder.pushList]
  | cons x xs ih =>
    intro lb
    show ((lb.push x).pushList xs).buffers.flatten ++ ((lb.push x).pushList xs).buffer = _
    rw [ih (lb.push x), push_chunks]
    simp

theorem pushList_time_of_all (t : ℕ) : ∀ (ts : List Tup), (∀ x ∈ ts, x.2.2.1 = t) →
    ts ≠ [] → ∀ lb : LayerBuilder, (lb.pushList ts).time = t := by
  intro ts
  induction ts with
  | nil => intro _ h; exact absurd rfl h
  | cons x xs ih =>
    intro hall _ lb
    cases xs with
    | nil =>
      show (lb.push x).time = t
      rw [push_time]
      exact hall x (by simp)
    | cons y ys =>
      show ((lb.push x).pushList (y :: ys)).time = t
      exact ih (fun z hz => hall z (by simp [hz])) (by simp) (lb.push x)

theorem done_bufs_flatten (lb : LayerBuilder) :
    (if lb.buffer.isEmpty then lb.buffers else lb.buffers ++ [lb.buffer]).flatten =
      lb.buffers.flatten ++ lb.buffer := by
  split
  · rename_i h
    rw [List.isEmpty_iff.mp h]
    simp
  · simp

theorem flushTuples_append (t : ℕ) (a b : List ((ℕ × ℕ) × ℤ)) :
    flushTuples t (a ++ b) = flushTuples t a ++ flushTuples t b :=
  List.map_append _ a b

theorem flushTuples_tupPair (t : ℕ) : ∀ l : List Tup, (∀ x ∈ l, x.2.2.1 = t) →
    flushTuples t (l.map tupPair) = l := by
  intro l
  induction l with
  | nil => intro _; rfl
  | cons x xs ih =>
    intro h
    show (x.1, x.2.1, t, x.2.2.2) :: flushTuples t (xs.map tupPair) = x :: xs
    rw [ih (fun y hy => h y (by simp [hy]))]
    have hx : x.2.2.1 = t := h x (by simp)
    obtain ⟨a, b, c, d⟩ := x
    have hc : c = t := hx
    subst hc
    rfl

theorem walk_eq_groups (t : ℕ) : ∀ (l : List ((ℕ × ℕ) × ℤ)) (cur : ℕ)
    (buf : List ((ℕ × ℕ) × ℤ)),
    walk t cur buf l = flushTuples t ((groupCur cur buf l).flatMap consolidateKV) := by
  intro l
  induction l with
  | nil => intro cur buf; simp [walk, groupCur]
  | cons x rest ih =>
    intro cur buf
    by_cases h : x.1.1 ≠ cur
    · rw [walk, groupCur, if_pos h, if_pos h, List.flatMap_cons, flushTuples_append,
        ih x.1.1 [x]]
    · rw [walk, groupCur, if_neg h, if_neg h]
      exact ih cur (buf ++ [x])

theorem groupCur_flatten : ∀ (l : List ((ℕ × ℕ) × ℤ)) (cur : ℕ)
    (buf : List ((ℕ × ℕ) × ℤ)), (groupCur cur buf l).flatten = buf ++ l := by
  intro l
  induction l with
  | nil => intro cur buf; simp [groupCur]
  | cons x rest ih =>
    intro cur buf
    by_cases h : x.1.1 ≠ cur
    · rw [groupCur, if_pos h]
      simp only [List.flatten_cons, ih x.1.1 [x]]
      simp
    · rw [groupCur, if_neg h, ih cur (buf ++ [x])]
      simp

theorem groupCur_sublist : ∀ (l : List ((ℕ × ℕ) × ℤ)) (cur : ℕ)
    (buf : List ((ℕ × ℕ) × ℤ)) (g : List ((ℕ × ℕ) × ℤ)),
    g ∈ groupCur cur buf l → g.Sublist (buf ++ l) := by
  intro l
  induction l with
  | nil =>
    intro cur buf g hg
    rw [groupCur] at hg
    simp only [List.mem_singleton] at hg
    subst hg
    simp
  | cons x rest ih =>
    intro cur buf g hg
    by_cases h : x.1.1 ≠ cur
    · rw [groupCur, if_pos h] at hg
      rcases List.mem_cons.mp hg with h2 | h2
      · subst h2
        exact List.sublist_append_left g (x :: rest)
      · have h3 := ih x.1.1 [x] g h2
        exact h3.trans (List.sublist_append_right buf (x :: rest))
    · rw [groupCur, if_neg h] at hg
      have h3 := ih cur (buf ++ [x]) g hg
      rw [List.append_assoc] at h3
      simpa using h3

theorem groupCur_cross : ∀ (l : List ((ℕ × ℕ) × ℤ)) (cur : ℕ)
    (buf : List ((ℕ × ℕ) × ℤ)),
    (buf ++ l).Pairwise hkLE → (∀ p ∈ buf, p.1.1 = cur) →
    (groupCur cur buf l).Pairwise
      (fun g1 g2 => ∀ p ∈ g1, ∀ q ∈ g2, p.1.1 < q.1.1) := by
  intro l
  induction l with
  | nil =>
    intro cur buf _ _
    rw [groupCur]
    simp
  | cons x rest ih =>
    intro cur buf hpw huni
    obtain ⟨_, hxr, hcross⟩ := List.pairwise_append.mp hpw
    by_cases h : x.1.1 ≠ cur
    · rw [groupCur, if_pos h]
      refine List.Pairwise.cons ?_ ?_
      · intro g hg p hp q hq
        have hq2 : q ∈ x :: rest := by
          have := (groupCur_sublist rest x.1.1 [x] g hg).subset hq
          simpa using this
        have hpk : p.1.1 = cur := huni p hp
        have hpx : p.1.1 ≤ x.1.1 := hcross p hp x (by simp)
        have hcx : cur < x.1.1 := by
          rcases Nat.lt_or_ge cur x.1.1 with h2 | h2
          · exact h2
          · exact absurd (Nat.le_antisymm (hpk ▸ hpx) h2).symm h
        rcases List.mem_cons.mp hq2 with h2 | h2
        · rw [hpk, h2]; exact hcx
        · have hxq : x.1.1 ≤ q.1.1 := (List.pairwise_cons.mp hxr).1 q h2
          rw [hpk]; omega
      · refine ih x.1.1 [x] (by simpa using hxr) ?_
        intro p hp
        simp only [List.mem_singleton] at hp
        rw [hp]
    · rw [groupCur, if_neg h]
      push_neg at h
      refine ih cur (buf ++ [x]) ?_ ?_
      · rw [List.append_assoc]
        simpa using hpw
      · intro p hp
        rcases List.mem_append.mp hp with h2 | h2
        · exact huni p h2
        · simp only [List.mem_singleton] at h2
          rw [h2, h]

theorem pairwise_conj {α : Type} {R S : α → α → Prop} :
    ∀ {l : List α}, l.Pairwise R → l.Pairwise S →
      l.Pairwise (fun a b => R a b ∧ S a b) := by
  intro l
  induction l with
  | nil => intro _ _; exact List.Pairwise.nil
  | cons x xs ih =>
    intro h1 h2
    obtain ⟨ha, hb⟩ := List.pairwise_cons.mp h1
    obtain ⟨hc, hd⟩ := List.pairwise_cons.mp h2
    exact List.Pairwise.cons (fun y hy => ⟨ha y hy, hc y hy⟩) (ih hb hd)

theorem sorted_unique (A B : List ((ℕ × ℕ) × ℤ)) (hAB : A.Perm B)
    (hA : A.Pairwise (fstRel kvLE)) (hB : B.Pairwise (fstRel kvLE))
    (hN : (A.map Prod.fst).Nodup) : A = B := by
  have hNB : (B.map Prod.fst).Nodup := ((hAB.map Prod.fst).nodup_iff).mp hN
  have hApw : A.Pairwise (fun a b : (ℕ × ℕ) × ℤ => a.1 ≠ b.1) :=
    List.pairwise_map.mp hN
  have hBpw : B.Pairwise (fun a b : (ℕ × ℕ) × ℤ => a.1 ≠ b.1) :=
    List.pairwise_map.mp hNB
  have hA2 : A.Pairwise kvSL :=
    (pairwise_conj hA hApw).imp (fun h => Or.inl h)
  have hB2 : B.Pairwise kvSL :=
    (pairwise_conj hB hBpw).imp (fun h => Or.inl h)
  exact List.eq_of_perm_of_sorted (r := kvSL) hAB hA2 hB2

theorem flatMap_perm_flatten {α : Type} (σ : List α → List α) :
    ∀ L : List (List α), (∀ g ∈ L, (σ g).Perm g) → (L.flatMap σ).Perm L.flatten := by
  intro L
  induction L with
  | nil => intro _; simp
  | cons g L ih =>
    intro h
    simp only [List.flatMap_cons, List.flatten_cons]
    exact (h g (by simp)).append (ih (fun g' hg' => h g' (by simp [hg'])))

theorem flatMap_pairwise (σ : List ((ℕ × ℕ) × ℤ) → List ((ℕ × ℕ) × ℤ)) :
    ∀ L : List (List ((ℕ × ℕ) × ℤ)),
      (∀ g ∈ L, (σ g).Pairwise (fstRel kvLE)) →
      (∀ g ∈ L, ∀ p ∈ σ g, p.1 ∈ g.map Prod.fst) →
      L.Pairwise (fun g1 g2 => ∀ p ∈ g1, ∀ q ∈ g2, p.1.1 < q.1.1) →
      (L.flatMap σ).Pairwise (fstRel kvLE) := by
  intro L
  induction L with
  | nil => intro _ _ _; simp
  | cons g L ih =>
    intro h1 h2 h3
    obtain ⟨hg, hrest⟩ := List.pairwise_cons.mp h3
    simp only [List.flatMap_cons]
    rw [List.pairwise_append]
    refine ⟨h1 g (by simp),
      ih (fun g' h => h1 g' (by simp [h])) (fun g' h => h2 g' (by simp [h])) hrest, ?_⟩
    intro p hp q hq
    obtain ⟨g', hg', hq'⟩ := List.mem_flatMap.mp hq
    obtain ⟨p0, hp0, hp0e⟩ := List.mem_map.mp (h2 g (by simp) p hp)
    obtain ⟨q0, hq0, hq0e⟩ := List.mem_map.mp (h2 g' (by simp [hg']) q hq')
    have hlt : p0.1.1 < q0.1.1 := hg g' hg' p0 hp0 q0 hq0
    show kvLE p.1 q.1
    rw [← hp0e, ← hq0e]
    exact Or.inl hlt

theorem contents_mk (tr : Trie) (d : Description) :
    (Layer.mk tr d).contents = flattenTrie tr := rfl

theorem walk_sorted_eq (t : ℕ) (P : List ((ℕ × ℕ) × ℤ))
    (hnd : (P.map Prod.fst).Nodup) (hnz : ∀ p ∈ P, p.2 ≠ 0) :
    walk t 0 [] (sortByHash P) = flushTuples t (List.insertionSort (fstRel kvLE) P) := by
  have hSP : (sortByHash P).Perm P := List.perm_insertionSort hkLE P
  have hSsorted : (sortByHash P).Pairwise hkLE := List.sorted_insertionSort hkLE P
  have hSnd : ((sortByHash P).map Prod.fst).Nodup := ((hSP.map Prod.fst).nodup_iff).mpr hnd
  have hSnz : ∀ p ∈ sortByHash P, p.2 ≠ 0 := fun p hp => hnz p (hSP.subset hp)
  have hsub : ∀ g ∈ groupCur 0 [] (sortByHash P), g.Sublist (sortByHash P) := by
    intro g hg
    have := groupCur_sublist (sortByHash P) 0 [] g hg
    simpa using this
  have hgcons : ∀ g ∈ groupCur 0 [] (sortByHash P),
      consolidateKV g = List.insertionSort (fstRel kvLE) g := by
    intro g hg
    exact consolidateBy_of_nodup kvLE g
      (List.Nodup.sublist ((hsub g hg).map Prod.fst) hSnd)
      (fun p hp => hSnz p ((hsub g hg).subset hp))
  have hAperm : ((groupCur 0 [] (sortByHash P)).flatMap consolidateKV).Perm (sortByHash P) := by
    have h1 := flatMap_perm_flatten consolidateKV (groupCur 0 [] (sortByHash P))
      (fun g hg => by rw [hgcons g hg]; exact List.perm_insertionSort _ g)
    have h2 : (groupCur 0 [] (sortByHash P)).flatten = sortByHash P := by
      simpa using groupCur_flatten (sortByHash P) 0 []
    rwa [h2] at h1
  rw [walk_eq_groups]
  congr 1
  apply sorted_unique
  · exact hAperm.trans (hSP.trans (List.perm_insertionSort (fstRel kvLE) P).symm)
  · apply flatMap_pairwise
    · intro g hg
      rw [hgcons g hg]
      exact List.sorted_insertionSort (fstRel kvLE) g
    · intro g _ p hp
      exact consolidateBy_fst_mem kvLE g p hp
    · exact groupCur_cross (sortByHash P) 0 [] (by simpa using hSsorted) (by simp)
  · exact List.sorted_insertionSort (fstRel kvLE) P
  · exact ((hAperm.map Prod.fst).nodup_iff).mpr hSnd

/-- **C7 counterexample.** The buffered builder and the direct builder are
not content-equivalent on every single-time input multiset: on two updates
with the same key, value and time and opposite multiplicities, the buffered
builder consolidates its chunk (producing an empty layer) while the direct
builder stores both tuples verbatim. -/
theorem builder_equivalence_counterexample :
    ((LayerBuilder.new.pushList [(0, 0, 5, 1), (0, 0, 5, -1)]).done [] []).contents ≠
      ((OrdBuilder.new.pushList
        (sortTuples [(0, 0, 5, 1), (0, 0, 5, -1)])).done [] []).contents := by
  decide

/-- **C7 (amended).** For every single-time input whose `(key, value)` pairs
are pairwise distinct and whose multiplicities are nonzero, pushing the
tuples into the buffered/hash-sorted builder and pushing the same tuples in
final trie order into the direct/pre-ordered builder, then calling `done`
with the same bounds, produce layers with identical cursor-enumerated
content. -/
theorem builder_equivalence (t : ℕ) (ts : List Tup)
    (ht : ∀ x ∈ ts, x.2.2.1 = t)
    (hnd : (ts.map (fun x => (x.1, x.2.1))).Nodup)
    (hnz : ∀ x ∈ ts, x.2.2.2 ≠ 0) (lo up : List ℕ) :
    ((LayerBuilder.new.pushList ts).done lo up).contents =
      ((OrdBuilder.new.pushList (sortTuples ts)).done lo up).contents := by
  have hOB : ((OrdBuilder.new.pushList (sortTuples ts)).done lo up).contents =
      sortTuples ts := by
    simp only [OrdBuilder.done]
    rw [contents_mk, ordPushList_builder]
    simp only [OrdBuilder.new, List.nil_append]
    exact flatten_buildTrie _
  rw [hOB]
  have hPnd : ((ts.map tupPair).map Prod.fst).Nodup := by
    rw [List.map_map]
    exact hnd
  have hPnz : ∀ p ∈ ts.map tupPair, p.2 ≠ 0 := by
    intro p hp
    obtain ⟨x, hx, rfl⟩ := List.mem_map.mp hp
    exact hnz x hx
  have hmapsort : List.insertionSort (fstRel kvLE) (ts.map tupPair) =
      (sortTuples ts).map tupPair :=
    (List.map_insertionSort tupLE (fstRel kvLE) tupPair ts
      (fun _ _ _ _ => Iff.rfl)).symm
  have hsorttimes : ∀ x ∈ sortTuples ts, x.2.2.1 = t := by
    intro x hx
    exact ht x ((List.mem_insertionSort tupLE).mp hx)
  by_cases hts : ts = []
  · subst hts
    rfl
  · have htime : (LayerBuilder.new.pushList ts).time = t :=
      pushList_time_of_all t ts ht hts _
    have hchunks : (LayerBuilder.new.pushList ts).buffers.flatten ++
        (LayerBuilder.new.pushList ts).buffer = ts.map tupPair := by
      have := pushList_chunks ts LayerBuilder.new
      simpa [LayerBuilder.new] using this
    simp only [LayerBuilder.done]
    split
    · rename_i hemp
      rw [contents_mk, flatten_buildTrie]
      have hbuf : (LayerBuilder.new.pushList ts).buffer = ts.map tupPair := by
        have h2 : (LayerBuilder.new.pushList ts).buffers = [] := List.isEmpty_iff.mp hemp
        rw [h2] at hchunks
        simpa using hchunks
      rw [hbuf, htime]
      simp only [consolidateKV]
      rw [consolidateBy_of_nodup kvLE (ts.map tupPair) hPnd hPnz, hmapsort,
        flushTuples_tupPair t _ hsorttimes]
    · rw [contents_mk, flatten_buildTrie]
      have hflat : (if (LayerBuilder.new.pushList ts).buffer.isEmpty then
            (LayerBuilder.new.pushList ts).buffers
          else (LayerBuilder.new.pushList ts).buffers ++
            [(LayerBuilder.new.pushList ts).buffer]).flatten = ts.map tupPair := by
        rw [done_bufs_flatten]
        exact hchunks
      rw [hflat, htime, walk_sorted_eq t (ts.map tupPair) hPnd hPnz, hmapsort,
        flushTuples_tupPair t _ hsorttimes]

/-- Closed instance of the amended builder equivalence at a concrete
two-tuple input. -/
theorem builder_equivalence_witness :
    (∀ x ∈ ([(1, 2, 5, 3), (0, 7, 5, -2)] : List Tup), x.2.2.1 = 5)
  ∧ (([(1, 2, 5, 3), (0, 7, 5, -2)] : List Tup).map (fun x => (x.1, x.2.1))).Nodup
  ∧ (∀ x ∈ ([(1, 2, 5, 3), (0, 7, 5, -2)] : List Tup), x.2.2.2 ≠ 0)
  ∧ ((LayerBuilder.new.pushList [(1, 2, 5, 3), (0, 7, 5, -2)]).done [] []).contents =
      ((OrdBuilder.new.pushList
        (sortTuples [(1, 2, 5, 3), (0, 7, 5, -2)])).done [] []).contents :=
  ⟨by decide, by decide, by decide,
    builder_equivalence 5 [(1, 2, 5, 3), (0, 7, 5, -2)]
      (by decide) (by decide) (by decide) [] []⟩

end RHH
